import Mathlib

/-!
# Currency statistics over a 90-day window (`main.go`)

Shallow embedding of the aggregation pipeline of `main.go`.

Modelling conventions:
* `float64` is modelled by `F64`: NaN, the two infinities, and the finite values, each written
  as a sign and a whole number of units of `2^-1074` (the spacing of the smallest binary64
  values, so that every finite binary64 value is such a multiple). Comparison, addition and
  division follow IEEE 754 binary64 with rounding to nearest, ties to even.
* `strconv.ParseFloat` is modelled exactly on plain decimal numerals (digits with at most one
  period): correct rounding, and a range error beyond the largest finite value. Its behaviour on
  every other text (signs, exponents, hexadecimal numerals, underscores, `Inf`, `NaN`,
  malformed texts) is the parameter `other`, about which nothing is assumed.
* a Go `panic` is modelled by `none` in `Option`.
* the Go map `map[string]*Currency` is modelled by an association list with at most one pair
  per key; the traversal order of a Go map is unspecified, so the report is modelled over an
  arbitrary enumeration of the pairs.
* `time.Time` is modelled by the instant (seconds since the epoch, nanoseconds) and the zone
  rules of its location; civil date and clock are counted in seconds (the wall clock reading),
  so that `AddDate(0, 0, n)` adds `n * 86400` to the wall clock reading and converts back to
  an instant the way `time.Date` does.
* the network fetch of one day is modelled by the decoded document it returns.
-/

namespace CbrRates

/-! ## `float64` -/

/-- A `float64`: NaN, an infinity with its sign, or a finite value `± mag * 2^-1074`. -/
inductive F64 where
  | nan
  | inf (neg : Bool)
  | fin (neg : Bool) (mag : Nat)
deriving DecidableEq, Repr

/-- The quotient `a / b` rounded to the nearest whole number, ties to the even one. -/
def roundHalfEven (a b : Nat) : Nat :=
  let q := a / b
  let r := a % b
  if 2 * r < b then q else if b < 2 * r then q + 1 else if q % 2 = 0 then q else q + 1

/-- Binary search, over `j` halving steps, for the largest `s` with `2^(52 + s) ≤ q`, starting
from a value `s` that has the property. -/
def spacingSearch : Nat → Nat → Nat → Nat
  | 0, s, _ => s
  | j + 1, s, q => spacingSearch j (if 2 ^ (52 + s + 2 ^ j) ≤ q then s + 2 ^ j else s) q

/-- The binary exponent of the spacing of binary64 values around `q` units of `2^-1074`:
0 below `2^53` units (spacing of one unit), and otherwise the `s` with
`2^(52 + s) ≤ q < 2^(53 + s)`, the spacing doubling with every further binary digit. The
search covers `s` up to 4095, far beyond the largest finite value (where `s` is 2045). -/
def spacingExp (q : Nat) : Nat := spacingSearch 12 0 q

/-- The binary64 value nearest to `± a / b` units of `2^-1074` (ties to even); an infinity when
the rounded magnitude exceeds the largest finite value `(2^53 - 1) * 2^2045` units. -/
def F64.round (neg : Bool) (a b : Nat) : F64 :=
  let s := spacingExp (a / b)
  let m := roundHalfEven a (b * 2 ^ s)
  if 2 ^ 2098 ≤ m * 2 ^ s then F64.inf neg else F64.fin neg (m * 2 ^ s)

/-- The `float64` nearest to the fraction `a / b`. -/
def F64.ofFrac (a b : Nat) : F64 := F64.round false (a * 2 ^ 1074) b

/-- The conversion `float64(n)` of a whole number. -/
def F64.ofNat (n : Nat) : F64 := F64.ofFrac n 1

/-- Whether the value is NaN. -/
def F64.isNaN : F64 → Bool
  | F64.nan => true
  | _ => false

/-- Position of a value among the infinities and the finite values. -/
def F64.rank : F64 → Int
  | F64.nan => 0
  | F64.inf neg => if neg then -1 else 1
  | F64.fin _ _ => 0

/-- The finite value in units of `2^-1074`, with its sign (0 for the other values). -/
def F64.signed : F64 → Int
  | F64.fin neg mag => if neg then -(mag : Int) else (mag : Int)
  | _ => 0

/-- The comparison `x < y` of Go: false when an operand is NaN. -/
def F64.lt (x y : F64) : Bool :=
  !x.isNaN && !y.isNaN && decide (x.rank < y.rank ∨ (x.rank = y.rank ∧ x.signed < y.signed))

/-- The comparison `x <= y` of Go: false when an operand is NaN. -/
def F64.le (x y : F64) : Bool :=
  !x.isNaN && !y.isNaN && decide (x.rank < y.rank ∨ (x.rank = y.rank ∧ x.signed ≤ y.signed))

/-- The comparison `x == y` of Go: false when an operand is NaN, true for the two zeros. -/
def F64.eq (x y : F64) : Bool :=
  !x.isNaN && !y.isNaN && decide (x.rank = y.rank ∧ x.signed = y.signed)

/-- The comparison `x > y` of Go. -/
def F64.gt (x y : F64) : Bool := F64.lt y x

/-- The sum `x + y` of Go. -/
def F64.add : F64 → F64 → F64
  | F64.nan, _ => F64.nan
  | _, F64.nan => F64.nan
  | F64.inf s, F64.inf t => if s = t then F64.inf s else F64.nan
  | F64.inf s, F64.fin _ _ => F64.inf s
  | F64.fin _ _, F64.inf t => F64.inf t
  | F64.fin s a, F64.fin t b =>
    let x : Int := (F64.fin s a).signed + (F64.fin t b).signed
    if x = 0 then F64.fin (s && t) 0 else F64.round (decide (x < 0)) x.natAbs 1

/-- The quotient `x / y` of Go. -/
def F64.div : F64 → F64 → F64
  | F64.nan, _ => F64.nan
  | _, F64.nan => F64.nan
  | F64.inf _, F64.inf _ => F64.nan
  | F64.inf s, F64.fin t _ => F64.inf (s != t)
  | F64.fin s _, F64.inf t => F64.fin (s != t) 0
  | F64.fin s a, F64.fin t b =>
    if b = 0 then (if a = 0 then F64.nan else F64.inf (s != t))
    else F64.round (s != t) (a * 2 ^ 1074) b

/-- Whether a value is one a `float64` can hold: a finite magnitude is below `2^2098` units and
a multiple of the spacing at its size. -/
def F64.representable : F64 → Bool
  | F64.fin _ mag => decide (mag < 2 ^ 2098 ∧ mag % 2 ^ spacingExp mag = 0)
  | _ => true

/-! ## Data model -/

/-- One `Valute` record of the decoded document (fields used by the program). -/
structure Valute where
  CharCode : String
  Nominal : String
  Value : String
deriving DecidableEq, Repr

/-- The decoded daily document: publication date and currency records. -/
structure ValCurs where
  Date : String
  Valute : List Valute
deriving DecidableEq, Repr

/-- Running statistics of one currency code. -/
structure Currency where
  Min : F64
  MinDate : String
  Max : F64
  MaxDate : String
  Sum : F64
deriving DecidableEq, Repr

/-- The fixed window length `period`. -/
def period : Nat := 90

/-- The aggregate mapping `map[string]*Currency`. -/
abbrev Store := List (String × Currency)

/-! ## `stringToFloat64` -/

/-- The call `strings.Replace(v, old, new, 1)` for one-character `old` and `new`, on character
lists: the first occurrence of `old` is replaced. -/
def replaceFirst (old new : Char) : List Char → List Char
  | [] => []
  | c :: cs => if c = old then new :: cs else c :: replaceFirst old new cs

/-- Value of a string of decimal digits, read left to right from an accumulator. -/
def digitsValue (acc : Nat) : List Char → Nat
  | [] => acc
  | c :: cs => digitsValue (10 * acc + (c.toNat - 48)) cs

/-- The plain decimal numerals `digits`, `digits.digits`, `digits.` and `.digits` (at least one
digit): the number written by all the digits, and how many of them follow the period. -/
def parseDecimal (s : List Char) : Option (Nat × Nat) :=
  let ip := s.takeWhile (fun c => c != '.')
  let fp := (s.dropWhile (fun c => c != '.')).drop 1
  if (ip ++ fp).all Char.isDigit && !(ip ++ fp).isEmpty then
    some (digitsValue 0 (ip ++ fp), fp.length)
  else none

/-- The range check of `strconv.ParseFloat`: a rounded value that is an infinity is reported
as a range error (`none`). -/
def rangeChecked : F64 → Option F64
  | F64.inf _ => none
  | f => some f

/-- The call `strconv.ParseFloat(s, 64)`, with `none` for an error. A plain decimal numeral
gives the nearest `float64`, or a range error when that is an infinity; every other text is
left to `other`. -/
def ParseFloat (other : List Char → Option F64) (s : List Char) : Option F64 :=
  match parseDecimal s with
  | some (n, k) => rangeChecked (F64.ofFrac n (10 ^ k))
  | none => other s

/-- Function `stringToFloat64`: replace the first comma by a period, parse, panic on a parse
error. -/
def stringToFloat64 (other : List Char → Option F64) (v : String) : Option F64 :=
  let valueStr := replaceFirst ',' '.' v.data
  ParseFloat other valueStr

/-! ## `setCurrencyDalyData` -/

/-- The lookup `dataNinetyDays[code]` in its comma-ok form. -/
def Store.get (m : Store) (code : String) : Option Currency :=
  match m with
  | [] => none
  | (k, c) :: rest => if k = code then some c else Store.get rest code

/-- Overwrite the statistic stored under an existing key (writes through the pointer). -/
def Store.set (m : Store) (code : String) (c : Currency) : Store :=
  match m with
  | [] => []
  | (k, old) :: rest => if k = code then (k, c) :: rest else (k, old) :: Store.set rest code c

/-- The assignment `dataNinetyDays[code] = &newCurrency` for a key that is absent. -/
def Store.insertNew (m : Store) (code : String) (c : Currency) : Store :=
  m ++ [(code, c)]

/-- The body of the loop of `setCurrencyDalyData` after the two numbers are parsed. -/
def updateEntry (date : String) (m : Store) (code : String) (value : F64) : Store :=
  match m.get code with
  | none =>
    m.insertNew code { Min := value, Max := value, MinDate := date, MaxDate := date, Sum := value }
  | some curr =>
    let curr := if F64.lt curr.Max value then { curr with Max := value, MaxDate := date } else curr
    let curr := if F64.gt curr.Min value then { curr with Min := value, MinDate := date } else curr
    let curr := { curr with Sum := F64.add curr.Sum value }
    m.set code curr

/-- One iteration of the loop of `setCurrencyDalyData` on one `Valute` record. -/
def loopBody (other : List Char → Option F64) (date : String) (m : Store) (currency : Valute) :
    Option Store := do
  let nominal ← stringToFloat64 other currency.Nominal
  let v ← stringToFloat64 other currency.Value
  let value := F64.div v nominal
  pure (updateEntry date m currency.CharCode value)

/-- Function `setCurrencyDalyData` on the document fetched for the day. -/
def setCurrencyDalyData (other : List Char → Option F64) (dalyExchangeRates : ValCurs)
    (dataNinetyDays : Store) : Option Store :=
  dalyExchangeRates.Valute.foldlM (loopBody other dalyExchangeRates.Date) dataNinetyDays

/-- The loop of `currencyInfo` over the documents fetched for the successive days, from a
given mapping. -/
def foldDays (other : List Char → Option F64) (docs : List ValCurs) (m : Store) : Option Store :=
  docs.foldlM (fun acc d => setCurrencyDalyData other d acc) m

/-! ## `getTimeInterval` and the loop of `currencyInfo` -/

/-- The zone in force at an instant: its offset from UTC in seconds and the instants between
which it applies (`start` included, `stop` excluded). -/
structure Zone where
  offset : Int
  start : Int
  stop : Int
deriving DecidableEq, Repr

/-- A `*time.Location`: the zone in force at every instant (seconds since the epoch). -/
structure Location where
  lookup : Int → Zone

/-- A `time.Time`: the instant (seconds since the epoch and nanoseconds) and the location. -/
structure Time where
  unix : Int
  nsec : Nat
  loc : Location

/-- The wall clock reading of a time: date and clock in the location, counted in seconds. -/
def Time.wall (t : Time) : Int :=
  t.unix + (t.loc.lookup t.unix).offset

/-- The instant `time.Date` returns for a wall clock reading in a location: the offset found at
the reading taken as an instant is used, unless the instant it gives lies outside that zone,
in which case the offset in force at that instant is used. -/
def Location.toInstant (l : Location) (wall : Int) : Int :=
  let z := l.lookup wall
  if z.offset ≠ 0 then
    let utc := wall - z.offset
    let offset := if utc < z.start ∨ utc ≥ z.stop then (l.lookup utc).offset else z.offset
    wall - offset
  else wall

/-- Method `t.AddDate(0, 0, days)`: `time.Date` on the date of `t` with `days` added to the
day, at the clock of `t`. -/
def Time.AddDate (t : Time) (days : Int) : Time :=
  { t with unix := t.loc.toInstant (t.wall + 86400 * days) }

/-- Method `t.After(u)`: the instant `t` is strictly later than `u`. -/
def Time.After (t u : Time) : Bool :=
  decide (t.unix > u.unix ∨ (t.unix = u.unix ∧ t.nsec > u.nsec))

/-- Function `getTimeInterval`, as a function of the current time `now`. -/
def getTimeInterval (now : Time) : Time × Time :=
  let start := now.AddDate (-(period : Int) + 1)
  let stop := now
  (start, stop)

/-- The successive values of `start` for which the body of the loop of `currencyInfo` runs:
`for ; start.After(stop) == false; start = start.AddDate(0, 0, 1)`. The result is `none` when
the loop has not ended after `fuel` iterations. -/
def loopDates : Nat → Time → Time → Option (List Time)
  | 0, _, _ => none
  | fuel + 1, start, stop =>
    if start.After stop = false then
      (loopDates fuel (start.AddDate 1) stop).map (fun rest => start :: rest)
    else some []

/-- Function `currencyInfo`: the fold of `setCurrencyDalyData` over the dates of the loop, from
the empty mapping; `fetch` is the document the network returns for a date. The outer `none`
stands for a loop that has not ended after `fuel` iterations, the inner one for a panic. -/
def currencyInfo (other : List Char → Option F64) (fetch : Time → ValCurs) (fuel : Nat)
    (start stop : Time) : Option (Option Store) :=
  (loopDates fuel start stop).map (fun dates => foldDays other (dates.map fetch) [])

/-- A location with one zone, of the given offset, at all times. -/
def Location.fixed (offset : Int) : Location :=
  { lookup := fun _ => { offset := offset, start := -(2 ^ 63), stop := 2 ^ 63 - 1 } }

/-- A location whose clocks go from UTC+1 to UTC+2 on 2021-03-28 at 01:00 UTC (the rule of
Europe/Berlin around that date). -/
def springForward : Location :=
  { lookup := fun u =>
      if u < 1616893200 then { offset := 3600, start := -(2 ^ 63), stop := 1616893200 }
      else { offset := 7200, start := 1616893200, stop := 2 ^ 63 - 1 } }

/-- The time 2021-06-25 02:30:00 in that location (00:30 UTC). -/
def nightOfJune25 : Time := { unix := 1624581000, nsec := 0, loc := springForward }

/-! ## The charset reader of `decodeWindows1251` -/

/-- The readers the charset reader can hand out. -/
inductive Reader where
  | windows1251Decoder
deriving DecidableEq, Repr

/-- The function installed as `d.CharsetReader`: the pair (reader, error) it returns, where
`none` stands for `nil`. -/
def charsetReader (charset : String) : Option Reader × Option String :=
  if charset = "windows-1251" then (some Reader.windows1251Decoder, none)
  else (none, some ("unknown charset: " ++ charset))

/-- Whether `encoding/xml` reads the document as UTF-8 without asking the charset reader: the
prolog declares no encoding (`enc` empty) or one equal to `utf-8` up to letter case. -/
def readAsUTF8 (enc : String) : Bool :=
  enc = "" || enc.data.map Char.toLower = "utf-8".data

/-- Function `decodeWindows1251` on a document whose prolog declares the encoding `enc` (empty
when it declares none). The decoder asks the charset reader unless the document is read as
UTF-8; an error of the reader makes `d.Decode` return it, and the function panics. Otherwise
the result is what decoding the stream gives (`decodeBody`, applied to the reader in use, if
any). -/
def decodeWindows1251 (enc : String) (decodeBody : Option Reader → Option ValCurs) :
    Option ValCurs :=
  if readAsUTF8 enc then decodeBody none
  else
    match charsetReader enc with
    | (some r, none) => decodeBody (some r)
    | _ => none

/-! ## The report of `main` -/

/-- One table row: number, code, the minimum and the maximum with their dates, the average. -/
structure Row where
  count : Nat
  key : String
  min : F64 × String
  max : F64 × String
  avg : F64
deriving DecidableEq, Repr

/-- The calls `main` makes on the table writer inside its loop. -/
inductive TableOp where
  | appendRows (r : Row)
  | appendSeparator
  | appendFooter (r : Row)
deriving DecidableEq, Repr

/-- The cells `main` builds for one pair of the mapping (the same in both branches). -/
def mkRow (count : Nat) (key : String) (value : Currency) : Row :=
  { count := count, key := key, min := (value.Min, value.MinDate),
    max := (value.Max, value.MaxDate), avg := F64.div value.Sum (F64.ofNat period) }

/-- The loop `for key, value := range info` of `main`, over the pairs in traversal order. -/
def renderLoop (mLen : Nat) : Nat → List (String × Currency) → List TableOp
  | _, [] => []
  | count, (key, value) :: rest =>
    (if count ≠ mLen then
        [TableOp.appendRows (mkRow count key value), TableOp.appendSeparator]
      else [TableOp.appendFooter (mkRow count key value)])
      ++ renderLoop mLen (count + 1) rest

/-- The table operations of `main` for the mapping `info`, traversed in the order `traversal`. -/
def mainTable (info : Store) (traversal : List (String × Currency)) : List TableOp :=
  let count := 1
  let mLen := info.length
  renderLoop mLen count traversal

/-- The rows of a list of table operations, each with whether it is the footer. -/
def emitted : List TableOp → List (Bool × Row)
  | [] => []
  | TableOp.appendRows r :: ops => (false, r) :: emitted ops
  | TableOp.appendSeparator :: ops => emitted ops
  | TableOp.appendFooter r :: ops => (true, r) :: emitted ops

/-! ## Observations of one currency code -/

/-- The normalized value of a record: quoted value ÷ nominal, when both texts parse. -/
def normalized (other : List Char → Option F64) (currency : Valute) : Option F64 := do
  let nominal ← stringToFloat64 other currency.Nominal
  let v ← stringToFloat64 other currency.Value
  pure (F64.div v nominal)

/-- The observations a document contributes for a code, in document order: publication date
and normalized value of each record carrying the code. -/
def dayObs (other : List Char → Option F64) (code : String) (doc : ValCurs) :
    List (String × F64) :=
  doc.Valute.filterMap
    (fun cur =>
      if cur.CharCode = code then (normalized other cur).map (fun v => (doc.Date, v)) else none)

/-- The observations of a code over the successive documents, in fold order. -/
def observations (other : List Char → Option F64) (code : String) (docs : List ValCurs) :
    List (String × F64) :=
  docs.flatMap (dayObs other code)

/-- The records carrying a code over the successive documents, in fold order. -/
def entriesOf (code : String) (docs : List ValCurs) : List Valute :=
  docs.flatMap (fun d => d.Valute.filter (fun cur => decide (cur.CharCode = code)))

/-- The currency codes occurring in the documents. -/
def codes (docs : List ValCurs) : List String :=
  docs.flatMap (fun d => d.Valute.map Valute.CharCode)

/-- What one observation does to the statistic of its own code (`none`: code not yet present). -/
def stepStat (o : Option Currency) (p : String × F64) : Option Currency :=
  match o with
  | none => some { Min := p.2, Max := p.2, MinDate := p.1, MaxDate := p.1, Sum := p.2 }
  | some curr =>
    let curr := if F64.lt curr.Max p.2 then { curr with Max := p.2, MaxDate := p.1 } else curr
    let curr := if F64.gt curr.Min p.2 then { curr with Min := p.2, MinDate := p.1 } else curr
    some { curr with Sum := F64.add curr.Sum p.2 }

/-- The running total of a sequence of values in `float64`: the first value, to which each
next one is added in turn, every addition rounded (0 for no value). -/
def runningSum : List F64 → F64
  | [] => F64.ofNat 0
  | v :: vs => vs.foldl F64.add v

/-- What the statistic `st` of a code must satisfy with respect to the observations `seen`
folded for it so far, the first of which is not NaN: Min and Max are not NaN, they bound every
observation that is not NaN, and each is dated by the first observation equal to it. -/
def Summarises (seen : List (String × F64)) (st : Currency) : Prop :=
  st.Min.isNaN = false ∧ st.Max.isNaN = false ∧
  (∀ p ∈ seen, p.2.isNaN = false → F64.le st.Min p.2 = true ∧ F64.le p.2 st.Max = true) ∧
  seen.find? (fun p => F64.eq p.2 st.Min) = some (st.MinDate, st.Min) ∧
  seen.find? (fun p => F64.eq p.2 st.Max) = some (st.MaxDate, st.Max)

/-- A reading of the other texts that rejects them all. -/
def noOther : List Char → Option F64 := fun _ => none

/-- Three days of the end-to-end scenario: `USD` with nominal 1 and values 90,0 / 91,5 / 89,0. -/
def usdDocs : List ValCurs :=
  [⟨"D1", [⟨"USD", "1", "90,0"⟩]⟩, ⟨"D2", [⟨"USD", "1", "91,5"⟩]⟩, ⟨"D3", [⟨"USD", "1", "89,0"⟩]⟩]

/-- The statistic of `USD` the scenario ends with: min 89 (D3), max 91.5 (D2), sum 270.5. -/
def usdStat : Currency :=
  { Min := F64.ofNat 89, MinDate := "D3", Max := F64.ofFrac 183 2, MaxDate := "D2",
    Sum := F64.ofFrac 541 2 }

/-- The mapping the scenario ends with. -/
def usdStore : Store := [("USD", usdStat)]

/-- A fourth day, on which only `EUR` is quoted. -/
def eurDoc : ValCurs := ⟨"D4", [⟨"EUR", "1", "90,0"⟩]⟩

/-- The statistic of `EUR` after the fourth day. -/
def eurStat : Currency :=
  { Min := F64.ofNat 90, MinDate := "D4", Max := F64.ofNat 90, MaxDate := "D4",
    Sum := F64.ofNat 90 }

/-- The mapping of the scenario after the fourth day. -/
def usdEurStore : Store := usdStore ++ [("EUR", eurStat)]

/-- Two days for `USD`: nominal 0 and value 0 on the first (the quotient 0 ÷ 0 is NaN), nominal
1 and value 7 on the second. -/
def nanDocs : List ValCurs :=
  [⟨"D1", [⟨"USD", "0", "0"⟩]⟩, ⟨"D2", [⟨"USD", "1", "7"⟩]⟩]

/-- The mapping those two days give. -/
def nanStore : Store :=
  [("USD", { Min := F64.nan, MinDate := "D1", Max := F64.nan, MaxDate := "D1", Sum := F64.nan })]

/-- Two days quoting `USD` at the same value. -/
def tieA : ValCurs := ⟨"D1", [⟨"USD", "1", "90,0"⟩]⟩

/-- The second of the two days quoting `USD` at the same value. -/
def tieB : ValCurs := ⟨"D2", [⟨"USD", "1", "90,0"⟩]⟩

/-- The statistic of `USD` after `tieA` and then `tieB`. -/
def tieStatAB : Currency :=
  { Min := F64.ofNat 90, MinDate := "D1", Max := F64.ofNat 90, MaxDate := "D1",
    Sum := F64.ofNat 180 }

/-- The statistic of `USD` after `tieB` and then `tieA`. -/
def tieStatBA : Currency :=
  { Min := F64.ofNat 90, MinDate := "D2", Max := F64.ofNat 90, MaxDate := "D2",
    Sum := F64.ofNat 180 }

/-- Three days quoting `USD` at 9007199254740992 (that is 2^53), 1 and 2. -/
def bigDocs : List ValCurs :=
  [⟨"D1", [⟨"USD", "1", "9007199254740992"⟩]⟩, ⟨"D2", [⟨"USD", "1", "1"⟩]⟩,
    ⟨"D3", [⟨"USD", "1", "2"⟩]⟩]

/-- The statistic of `USD` those three days give. -/
def bigStat : Currency :=
  { Min := F64.ofNat 1, MinDate := "D2", Max := F64.ofNat 9007199254740992, MaxDate := "D1",
    Sum := F64.ofNat 9007199254740994 }

/-- The mapping those three days give. -/
def bigStore : Store := [("USD", bigStat)]

/-- Ten days quoting `USD` at 0,1. -/
def tenthDocs : List ValCurs := List.replicate 10 ⟨"D1", [⟨"USD", "1", "0,1"⟩]⟩

/-- The `float64` nearest to 0.1 (it is slightly above 0.1). -/
def tenth : F64 := F64.ofFrac 1 10

/-- The `float64` just below 1, written 0.9999999999999999. -/
def belowOne : F64 := F64.fin false ((2 ^ 53 - 1) * 2 ^ 1021)

/-- The statistic of `USD` those ten days give. -/
def tenthStat : Currency :=
  { Min := tenth, MinDate := "D1", Max := tenth, MaxDate := "D1", Sum := belowOne }

/-- The text 0,00...05 with 323 zeros after the comma: 5 · 10^-324, which rounds to the
smallest positive `float64`, one unit of `2^-1074`. -/
def tinyText : String := String.mk ('0' :: ',' :: (List.replicate 323 '0' ++ ['5']))

/-- Eighty-nine days quoting `USD` at that value. -/
def tinyDocs : List ValCurs := List.replicate 89 ⟨"D1", [⟨"USD", "1", tinyText⟩]⟩

/-- The smallest positive `float64`. -/
def tiny : F64 := F64.fin false 1

/-- The statistic of `USD` those eighty-nine days give. -/
def tinyStat : Currency :=
  { Min := tiny, MinDate := "D1", Max := tiny, MaxDate := "D1", Sum := F64.fin false 89 }

/-- Whether two `float64` are the same value: identical, or equal in the comparison `==`. -/
def sameFloat (x y : F64) : Prop := x = y ∨ F64.eq x y = true

/-- The running `float64` total of the values `vs` from a prior total, if any: the prior total
(or else the first value), to which each value is added in turn. -/
def totalFrom (prior : Option F64) (vs : List F64) : Option F64 :=
  match prior, vs with
  | some s, vs => some (vs.foldl F64.add s)
  | none, [] => none
  | none, v :: rest => some (rest.foldl F64.add v)

/-- What the Min and MinDate of `st'` must satisfy when `st'` results from the statistic `st` by
folding the observations `seen`, none of which is NaN. -/
def ExtendsMin (st : Currency) (seen : List (String × F64)) (st' : Currency) : Prop :=
  (st.Min.isNaN = true → st'.Min = st.Min ∧ st'.MinDate = st.MinDate) ∧
  (st.Min.isNaN = false →
    st'.Min.isNaN = false ∧ F64.le st'.Min st.Min = true ∧
    (∀ p ∈ seen, F64.le st'.Min p.2 = true) ∧
    ((st'.Min = st.Min ∧ st'.MinDate = st.MinDate) ∨
      (F64.lt st'.Min st.Min = true ∧
        seen.find? (fun p => F64.eq p.2 st'.Min) = some (st'.MinDate, st'.Min))))

/-- What the Max and MaxDate of `st'` must satisfy when `st'` results from the statistic `st` by
folding the observations `seen`, none of which is NaN. -/
def ExtendsMax (st : Currency) (seen : List (String × F64)) (st' : Currency) : Prop :=
  (st.Max.isNaN = true → st'.Max = st.Max ∧ st'.MaxDate = st.MaxDate) ∧
  (st.Max.isNaN = false →
    st'.Max.isNaN = false ∧ F64.le st.Max st'.Max = true ∧
    (∀ p ∈ seen, F64.le p.2 st'.Max = true) ∧
    ((st'.Max = st.Max ∧ st'.MaxDate = st.MaxDate) ∨
      (F64.lt st.Max st'.Max = true ∧
        seen.find? (fun p => F64.eq p.2 st'.Max) = some (st'.MaxDate, st'.Max))))

/-- A mapping in which `USD` has been folded once, at 9007199254740992. -/
def bigPrior : Store :=
  [("USD", { Min := F64.ofNat 9007199254740992, MinDate := "D1",
             Max := F64.ofNat 9007199254740992, MaxDate := "D1",
             Sum := F64.ofNat 9007199254740992 })]

/-- A day quoting `USD` at 1. -/
def oneDoc : ValCurs := ⟨"D2", [⟨"USD", "1", "1"⟩]⟩

/-- A day quoting `USD` at 2. -/
def twoDoc : ValCurs := ⟨"D3", [⟨"USD", "1", "2"⟩]⟩

/-- The statistic of `USD` after `oneDoc` and then `twoDoc` are folded into `bigPrior`. -/
def bigStat12 : Currency :=
  { Min := F64.ofNat 1, MinDate := "D2", Max := F64.ofNat 9007199254740992, MaxDate := "D1",
    Sum := F64.ofNat 9007199254740994 }

/-- The statistic of `USD` after `twoDoc` and then `oneDoc` are folded into `bigPrior`. -/
def bigStat21 : Currency :=
  { Min := F64.ofNat 1, MinDate := "D2", Max := F64.ofNat 9007199254740992, MaxDate := "D1",
    Sum := F64.ofNat 9007199254740996 }

/-- The first day of the end-to-end scenario. -/
def dayOne : ValCurs := ⟨"D1", [⟨"USD", "1", "90,0"⟩]⟩

/-- The second day of the end-to-end scenario. -/
def dayTwo : ValCurs := ⟨"D2", [⟨"USD", "1", "91,5"⟩]⟩

/-- The statistic of `USD` after the first two days of the scenario, in either order. -/
def twoDayStat : Currency :=
  { Min := F64.ofNat 90, MinDate := "D1", Max := F64.ofFrac 183 2, MaxDate := "D2",
    Sum := F64.ofFrac 363 2 }

/-- The text of four hundred nines, a comma and a zero. -/
def ninesText : String := String.mk (List.replicate 400 '9' ++ ',' :: ['0'])

/-- The keys of the mapping. -/
def Store.keys (m : Store) : List String := m.map Prod.fst

end CbrRates

namespace CbrRates

/-! ## Lemmas on the mapping -/

theorem Store.get_insertNew (m : Store) (code c : String) (st : Currency) :
    (m.insertNew code st).get c = match m.get c with
      | some x => some x
      | none => if code = c then some st else none := by
  induction m with
  | nil => simp [Store.insertNew, Store.get]
  | cons hd tl ih =>
    obtain ⟨k, v⟩ := hd
    simp only [Store.insertNew, List.cons_append, Store.get] at ih ⊢
    by_cases hk : k = c
    · simp [hk]
    · simp only [hk, if_false]; exact ih

theorem Store.get_set (m : Store) (code c : String) (st : Currency) :
    (m.set code st).get c = if code = c then (m.get c).map (fun _ => st) else m.get c := by
  induction m with
  | nil => simp [Store.set, Store.get]
  | cons hd tl ih =>
    obtain ⟨k, v⟩ := hd
    by_cases hk : k = code
    · subst hk
      by_cases hc : k = c
      · simp [Store.set, Store.get, hc]
      · simp [Store.set, Store.get, hc]
    · by_cases hc : k = c
      · subst hc
        simp [Store.set, Store.get, hk, Ne.symm hk]
      · simp only [Store.set, hk, if_false, Store.get, hc]
        exact ih

theorem Store.keys_set (m : Store) (code : String) (st : Currency) :
    (m.set code st).keys = m.keys := by
  induction m with
  | nil => rfl
  | cons hd tl ih =>
    obtain ⟨k, v⟩ := hd
    by_cases hk : k = code
    · simp [Store.set, Store.keys, hk]
    · simp only [Store.keys] at ih
      simp [Store.set, Store.keys, hk, ih]

theorem Store.mem_keys_iff (m : Store) (c : String) : c ∈ m.keys ↔ m.get c ≠ none := by
  induction m with
  | nil => simp [Store.keys, Store.get]
  | cons hd tl ih =>
    obtain ⟨k, v⟩ := hd
    simp only [Store.keys, List.map_cons, List.mem_cons, Store.get] at ih ⊢
    by_cases hk : k = c
    · simp [hk]
    · simp only [hk, if_false]
      rw [← ih]
      constructor
      · rintro (h | h)
        · exact absurd h.symm hk
        · exact h
      · exact Or.inr

/-- The statistic of every code after one loop iteration. -/
theorem get_updateEntry (date : String) (m : Store) (code c : String) (value : F64) :
    (updateEntry date m code value).get c =
      if code = c then stepStat (m.get c) (date, value) else m.get c := by
  unfold updateEntry
  by_cases hc : code = c
  · subst hc
    cases hg : m.get code with
    | none => simp [Store.get_insertNew, hg, stepStat]
    | some curr => simp [Store.get_set, hg, stepStat]
  · cases hg : m.get code with
    | none =>
      simp only [Store.get_insertNew, hc, if_false]
      cases m.get c <;> rfl
    | some curr => simp [Store.get_set, hc]

/-- One loop iteration keeps the keys distinct. -/
theorem keys_nodup_updateEntry (date : String) (m : Store) (code : String) (value : F64)
    (h : m.keys.Nodup) : (updateEntry date m code value).keys.Nodup := by
  unfold updateEntry
  cases hg : m.get code with
  | none =>
    have hn : code ∉ m.keys := by
      rw [Store.mem_keys_iff]; simp [hg]
    simp only [Store.insertNew, Store.keys, List.map_append, List.map_cons, List.map_nil]
    rw [List.nodup_append]
    refine ⟨h, List.nodup_singleton _, ?_⟩
    intro a ha hb
    simp only [List.mem_singleton] at hb
    subst hb
    exact hn ha
  | some curr => simp only [Store.keys_set]; exact h

/-! ## The fold, code by code -/

theorem loopBody_eq (other : List Char → Option F64) (date : String) (m : Store) (cur : Valute) :
    loopBody other date m cur = (normalized other cur).map (updateEntry date m cur.CharCode) := by
  unfold loopBody normalized
  cases stringToFloat64 other cur.Nominal with
  | none => rfl
  | some n =>
    cases stringToFloat64 other cur.Value with
    | none => rfl
    | some v => rfl

/-- The loop over the records of one document, seen from one code. -/
theorem get_foldlM_loopBody (other : List Char → Option F64) (date : String) (c : String) :
    ∀ (es : List Valute) (m m' : Store), es.foldlM (loopBody other date) m = some m' →
      m'.get c = (dayObs other c ⟨date, es⟩).foldl stepStat (m.get c) := by
  intro es
  induction es with
  | nil =>
    intro m m' h
    simp only [List.foldlM_nil, pure, Option.some.injEq] at h
    subst h
    simp [dayObs]
  | cons cur tl ih =>
    intro m m' h
    rw [List.foldlM_cons, loopBody_eq other] at h
    cases hn : normalized other cur with
    | none => rw [hn] at h; simp at h
    | some v =>
      rw [hn] at h
      simp only [Option.map_some', Option.bind_eq_bind, Option.some_bind] at h
      rw [ih _ _ h, get_updateEntry]
      simp only [dayObs] at *
      by_cases hc : cur.CharCode = c
      · simp [List.filterMap_cons, hc, hn]
      · simp [List.filterMap_cons, hc]

theorem get_setCurrencyDalyData (other : List Char → Option F64) (doc : ValCurs)
    (m m' : Store) (c : String)
    (h : setCurrencyDalyData other doc m = some m') :
    m'.get c = (dayObs other c doc).foldl stepStat (m.get c) :=
  get_foldlM_loopBody other doc.Date c doc.Valute m m' h

theorem get_foldDays (other : List Char → Option F64) (c : String) :
    ∀ (docs : List ValCurs) (m m' : Store), foldDays other docs m = some m' →
      m'.get c = (observations other c docs).foldl stepStat (m.get c) := by
  intro docs
  induction docs with
  | nil =>
    intro m m' h
    simp only [foldDays, List.foldlM_nil, pure, Option.some.injEq] at h
    subst h
    simp [observations]
  | cons d tl ih =>
    intro m m' h
    simp only [foldDays, List.foldlM_cons] at h
    cases hd : setCurrencyDalyData other d m with
    | none => rw [hd] at h; simp at h
    | some m1 =>
      rw [hd] at h
      simp only [Option.bind_eq_bind, Option.some_bind] at h
      have h2 : foldDays other tl m1 = some m' := h
      rw [ih _ _ h2, get_setCurrencyDalyData other d m m1 c hd]
      simp [observations, List.foldl_append]

/-- When the loop over a document finishes, every record it holds was parsed. -/
theorem normalized_of_foldlM (other : List Char → Option F64) (date : String) :
    ∀ (es : List Valute) (m m' : Store), es.foldlM (loopBody other date) m = some m' →
      ∀ cur ∈ es, ∃ v, normalized other cur = some v := by
  intro es
  induction es with
  | nil => intro m m' _ cur hcur; simp at hcur
  | cons e tl ih =>
    intro m m' h cur hcur
    rw [List.foldlM_cons, loopBody_eq other] at h
    cases hn : normalized other e with
    | none => rw [hn] at h; simp at h
    | some v =>
      rw [hn] at h
      simp only [Option.map_some', Option.bind_eq_bind, Option.some_bind] at h
      rcases List.mem_cons.1 hcur with rfl | hmem
      · exact ⟨v, hn⟩
      · exact ih _ _ h cur hmem

theorem normalized_of_foldDays (other : List Char → Option F64) :
    ∀ (docs : List ValCurs) (m m' : Store), foldDays other docs m = some m' →
      ∀ d ∈ docs, ∀ cur ∈ d.Valute, ∃ v, normalized other cur = some v := by
  intro docs
  induction docs with
  | nil => intro m m' _ d hd; simp at hd
  | cons d0 tl ih =>
    intro m m' h d hd cur hcur
    simp only [foldDays, List.foldlM_cons] at h
    cases h0 : setCurrencyDalyData other d0 m with
    | none => rw [h0] at h; simp at h
    | some m1 =>
      rw [h0] at h
      simp only [Option.bind_eq_bind, Option.some_bind] at h
      rcases List.mem_cons.1 hd with rfl | hmem
      · exact normalized_of_foldlM other d.Date d.Valute m m1 h0 cur hcur
      · exact ih m1 m' h d hmem cur hcur

/-- A code occurs in the documents exactly when it has an observation, once the fold finished. -/
theorem mem_codes_iff_observations (other : List Char → Option F64) (docs : List ValCurs)
    (m m' : Store)
    (h : foldDays other docs m = some m') (c : String) :
    c ∈ codes docs ↔ observations other c docs ≠ [] := by
  constructor
  · intro hc
    simp only [codes, List.mem_flatMap, List.mem_map] at hc
    obtain ⟨d, hd, cur, hcur, rfl⟩ := hc
    obtain ⟨v, hv⟩ := normalized_of_foldDays other docs m m' h d hd cur hcur
    have hmem : (d.Date, v) ∈ observations other cur.CharCode docs := by
      simp only [observations, List.mem_flatMap]
      refine ⟨d, hd, ?_⟩
      simp only [dayObs, List.mem_filterMap]
      exact ⟨cur, hcur, by simp [hv]⟩
    intro he
    rw [he] at hmem
    simp at hmem
  · intro hne
    obtain ⟨p, hp⟩ := List.exists_mem_of_ne_nil _ hne
    simp only [observations, List.mem_flatMap, dayObs, List.mem_filterMap] at hp
    obtain ⟨d, hd, cur, hcur, hif⟩ := hp
    simp only [codes, List.mem_flatMap, List.mem_map]
    refine ⟨d, hd, cur, hcur, ?_⟩
    by_contra hne2
    simp [hne2] at hif

/-! ## Keys of the aggregate -/

theorem foldl_stepStat_some (l : List (String × F64)) :
    ∀ st : Currency, ∃ st', l.foldl stepStat (some st) = some st' := by
  induction l with
  | nil => intro st; exact ⟨st, rfl⟩
  | cons p tl ih =>
    intro st
    rw [List.foldl_cons]
    simp only [stepStat]
    exact ih _

theorem keys_nodup_foldlM (other : List Char → Option F64) (date : String) :
    ∀ (es : List Valute) (m m' : Store), es.foldlM (loopBody other date) m = some m' →
      m.keys.Nodup → m'.keys.Nodup := by
  intro es
  induction es with
  | nil =>
    intro m m' h hn
    simp only [List.foldlM_nil, pure, Option.some.injEq] at h
    subst h
    exact hn
  | cons cur tl ih =>
    intro m m' h hn
    rw [List.foldlM_cons, loopBody_eq other] at h
    cases hv : normalized other cur with
    | none => rw [hv] at h; simp at h
    | some v =>
      rw [hv] at h
      simp only [Option.map_some', Option.bind_eq_bind, Option.some_bind] at h
      exact ih _ _ h (keys_nodup_updateEntry date m cur.CharCode v hn)

theorem keys_nodup_foldDays (other : List Char → Option F64) :
    ∀ (docs : List ValCurs) (m m' : Store), foldDays other docs m = some m' →
      m.keys.Nodup → m'.keys.Nodup := by
  intro docs
  induction docs with
  | nil =>
    intro m m' h hn
    simp only [foldDays, List.foldlM_nil, pure, Option.some.injEq] at h
    subst h
    exact hn
  | cons d tl ih =>
    intro m m' h hn
    simp only [foldDays, List.foldlM_cons] at h
    cases hd : setCurrencyDalyData other d m with
    | none => rw [hd] at h; simp at h
    | some m1 =>
      rw [hd] at h
      simp only [Option.bind_eq_bind, Option.some_bind] at h
      exact ih m1 m' h (keys_nodup_foldlM other d.Date d.Valute m m1 hd hn)

theorem Store.get_of_mem (m : Store) (hn : m.keys.Nodup) (k : String) (st : Currency)
    (hmem : (k, st) ∈ m) : m.get k = some st := by
  induction m with
  | nil => simp at hmem
  | cons hd tl ih =>
    obtain ⟨k0, v0⟩ := hd
    simp only [Store.keys, List.map_cons, List.nodup_cons] at hn
    rcases List.mem_cons.1 hmem with heq | hin
    · simp only [Prod.mk.injEq] at heq
      simp [Store.get, heq.1, heq.2]
    · have hne : k0 ≠ k := by
        rintro rfl
        exact hn.1 (List.mem_map.2 ⟨(k0, st), hin, rfl⟩)
      simp only [Store.get, hne, if_false]
      exact ih hn.2 hin

theorem dayObs_eq_nil_of_not_mem (other : List Char → Option F64) (c : String) (doc : ValCurs)
    (hc : c ∉ doc.Valute.map Valute.CharCode) : dayObs other c doc = [] := by
  simp only [dayObs, List.filterMap_eq_nil_iff]
  intro cur hcur
  have hne : cur.CharCode ≠ c := by
    rintro rfl
    exact hc (List.mem_map.2 ⟨cur, hcur, rfl⟩)
  simp [hne]

/-! ## The report -/

theorem emitted_append (a b : List TableOp) : emitted (a ++ b) = emitted a ++ emitted b := by
  induction a with
  | nil => rfl
  | cons op tl ih =>
    cases op <;> simp [emitted, ih]

/-- The rows of the loop of `main`: one per pair, numbered from `count` on, the footer being the
row whose number is `mLen`. -/
theorem emitted_renderLoop (mLen : Nat) :
    ∀ (t : List (String × Currency)) (count : Nat),
      emitted (renderLoop mLen count t) =
        (t.enumFrom count).map
          (fun ip => (decide (ip.1 = mLen), mkRow ip.1 ip.2.1 ip.2.2)) := by
  intro t
  induction t with
  | nil => intro count; rfl
  | cons kv tl ih =>
    intro count
    obtain ⟨k, v⟩ := kv
    simp only [renderLoop, emitted_append, ih, List.enumFrom_cons, List.map_cons]
    by_cases hc : count = mLen
    · simp [hc, emitted]
    · simp [hc, emitted]

/-- The observations of a code are the normalized values of the records carrying it. -/
theorem observations_eq_entriesOf (other : List Char → Option F64) (c : String)
    (docs : List ValCurs)
    (hp : ∀ d ∈ docs, ∀ cur ∈ d.Valute, ∃ v, normalized other cur = some v) :
    (observations other c docs).map (fun p => some p.2) =
      (entriesOf c docs).map (normalized other) := by
  induction docs with
  | nil => simp [observations, entriesOf]
  | cons d tl ih =>
    have htl := ih (fun d0 hd0 => hp d0 (List.mem_cons_of_mem _ hd0))
    simp only [observations, entriesOf, List.flatMap_cons, List.map_append] at htl ⊢
    rw [htl]
    congr 1
    have hd := hp d (List.mem_cons_self _ _)
    simp only [dayObs]
    generalize d.Valute = es at hd
    induction es with
    | nil => simp
    | cons e rest ihe =>
      obtain ⟨v, hv⟩ := hd e (List.mem_cons_self _ _)
      have hrest := ihe (fun cur hcur => hd cur (List.mem_cons_of_mem _ hcur))
      by_cases hc : e.CharCode = c
      · simp [List.filterMap_cons, List.filter_cons, hc, hv, hrest]
      · simp [List.filterMap_cons, List.filter_cons, hc, hrest]

/-! ## Comparisons of `float64` -/

theorem F64.lt_iff (x y : F64) :
    F64.lt x y = true ↔ x.isNaN = false ∧ y.isNaN = false ∧
      (x.rank < y.rank ∨ (x.rank = y.rank ∧ x.signed < y.signed)) := by
  simp [F64.lt, and_assoc]

theorem F64.le_iff (x y : F64) :
    F64.le x y = true ↔ x.isNaN = false ∧ y.isNaN = false ∧
      (x.rank < y.rank ∨ (x.rank = y.rank ∧ x.signed ≤ y.signed)) := by
  simp [F64.le, and_assoc]

theorem F64.eq_iff (x y : F64) :
    F64.eq x y = true ↔ x.isNaN = false ∧ y.isNaN = false ∧
      (x.rank = y.rank ∧ x.signed = y.signed) := by
  simp [F64.eq, and_assoc]

theorem F64.lt_of_nan_left (x y : F64) (h : x.isNaN = true) : F64.lt x y = false := by
  simp [F64.lt, h]

theorem F64.lt_of_nan_right (x y : F64) (h : y.isNaN = true) : F64.lt x y = false := by
  simp [F64.lt, h]

theorem F64.eq_self (x : F64) (h : x.isNaN = false) : F64.eq x x = true := by
  rw [F64.eq_iff]; exact ⟨h, h, rfl, rfl⟩

theorem F64.le_self (x : F64) (h : x.isNaN = false) : F64.le x x = true := by
  rw [F64.le_iff]; exact ⟨h, h, Or.inr ⟨rfl, le_refl _⟩⟩

/-- On values that are not NaN, `x <= y` holds exactly when `y < x` fails. -/
theorem F64.le_of_not_lt (x y : F64) (hx : x.isNaN = false) (hy : y.isNaN = false)
    (h : F64.lt y x = false) : F64.le x y = true := by
  rw [F64.le_iff]
  refine ⟨hx, hy, ?_⟩
  have hn : ¬ (F64.lt y x = true) := by simp [h]
  rw [F64.lt_iff] at hn
  simp only [hx, hy, true_and] at hn
  omega

theorem F64.le_trans (x y z : F64) (h1 : F64.le x y = true) (h2 : F64.le y z = true) :
    F64.le x z = true := by
  rw [F64.le_iff] at h1 h2 ⊢
  refine ⟨h1.1, h2.2.1, ?_⟩
  have a := h1.2.2
  have b := h2.2.2
  omega

theorem F64.le_of_lt (x y : F64) (h : F64.lt x y = true) : F64.le x y = true := by
  rw [F64.lt_iff] at h
  rw [F64.le_iff]
  refine ⟨h.1, h.2.1, ?_⟩
  have a := h.2.2
  omega

theorem F64.lt_of_lt_of_le (x y z : F64) (h1 : F64.lt x y = true) (h2 : F64.le y z = true) :
    F64.lt x z = true := by
  rw [F64.lt_iff] at h1 ⊢
  rw [F64.le_iff] at h2
  refine ⟨h1.1, h2.2.1, ?_⟩
  have a := h1.2.2
  have b := h2.2.2
  omega

theorem F64.lt_of_le_of_lt (x y z : F64) (h1 : F64.le x y = true) (h2 : F64.lt y z = true) :
    F64.lt x z = true := by
  rw [F64.lt_iff] at h2 ⊢
  rw [F64.le_iff] at h1
  refine ⟨h1.1, h2.2.1, ?_⟩
  have a := h1.2.2
  have b := h2.2.2
  omega

theorem F64.not_lt_of_le (x y : F64) (h : F64.le x y = true) : F64.lt y x = false := by
  rw [Bool.eq_false_iff]
  intro hlt
  rw [F64.lt_iff] at hlt
  rw [F64.le_iff] at h
  have a := h.2.2
  have b := hlt.2.2
  omega

theorem F64.not_eq_of_lt (x y : F64) (h : F64.lt x y = true) : F64.eq x y = false := by
  rw [Bool.eq_false_iff]
  intro he
  rw [F64.lt_iff] at h
  rw [F64.eq_iff] at he
  have a := h.2.2
  have b := he.2.2
  omega

theorem F64.not_eq_of_gt (x y : F64) (h : F64.lt y x = true) : F64.eq x y = false := by
  rw [Bool.eq_false_iff]
  intro he
  rw [F64.lt_iff] at h
  rw [F64.eq_iff] at he
  have a := h.2.2
  have b := he.2.2
  omega

theorem F64.eq_of_le_of_le (x y : F64) (h1 : F64.le x y = true) (h2 : F64.le y x = true) :
    F64.eq x y = true := by
  rw [F64.le_iff] at h1 h2
  rw [F64.eq_iff]
  refine ⟨h1.1, h1.2.1, ?_⟩
  have a := h1.2.2
  have b := h2.2.2
  omega

theorem F64.le_of_eq (x y : F64) (h : F64.eq x y = true) : F64.le x y = true := by
  rw [F64.eq_iff] at h
  rw [F64.le_iff]
  refine ⟨h.1, h.2.1, ?_⟩
  have a := h.2.2
  omega

theorem F64.eq_symm (x y : F64) (h : F64.eq x y = true) : F64.eq y x = true := by
  rw [F64.eq_iff] at h ⊢
  exact ⟨h.2.1, h.1, h.2.2.1.symm, h.2.2.2.symm⟩

/-- Equal values compare alike with every third value. -/
theorem F64.eq_congr_right (x y z : F64) (h : F64.eq x y = true) : F64.eq z x = F64.eq z y := by
  rw [F64.eq_iff] at h
  cases hz : z.isNaN with
  | true => simp [F64.eq, hz]
  | false =>
    simp only [F64.eq, hz, h.1, h.2.1, Bool.not_false, Bool.true_and]
    congr 1
    apply propext
    have a := h.2.2
    constructor <;> intro b <;> omega

/-! ## The statistic of one code -/

theorem find?_snoc_new (seen : List (String × F64)) (p : String × F64)
    (hp : p.2.isNaN = false) (hnew : ∀ q ∈ seen, F64.eq q.2 p.2 = false) :
    (seen ++ [p]).find? (fun q => F64.eq q.2 p.2) = some (p.1, p.2) := by
  have hnone : seen.find? (fun q => F64.eq q.2 p.2) = none := by
    rw [List.find?_eq_none]
    intro q hq hqe
    rw [hnew q hq] at hqe
    exact absurd hqe (by simp)
  simp [List.find?_append, hnone, List.find?_cons, F64.eq_self p.2 hp]

theorem find?_snoc_old (seen : List (String × F64)) (p r : String × F64) (x : F64)
    (hold : seen.find? (fun q => F64.eq q.2 x) = some r) :
    (seen ++ [p]).find? (fun q => F64.eq q.2 x) = some r := by
  simp [List.find?_append, hold]

theorem Summarises.min_le_max {seen : List (String × F64)} {st : Currency}
    (h : Summarises seen st) : F64.le st.Min st.Max = true := by
  obtain ⟨hmn, _, hb, hmin, _⟩ := h
  have hmem := List.mem_of_find?_eq_some hmin
  exact (hb _ hmem hmn).2

theorem summarises_first (p : String × F64) (hp : p.2.isNaN = false) :
    Summarises [p] { Min := p.2, Max := p.2, MinDate := p.1, MaxDate := p.1, Sum := p.2 } := by
  refine ⟨hp, hp, ?_, ?_, ?_⟩
  · intro q hq _
    simp only [List.mem_singleton] at hq
    subst hq
    exact ⟨F64.le_self _ hp, F64.le_self _ hp⟩
  · simp [List.find?_cons, F64.eq_self p.2 hp]
  · simp [List.find?_cons, F64.eq_self p.2 hp]

theorem summarises_step {seen : List (String × F64)} {st : Currency} (p : String × F64)
    (h : Summarises seen st) :
    ∃ st', stepStat (some st) p = some st' ∧ Summarises (seen ++ [p]) st' := by
  have hmm := h.min_le_max
  obtain ⟨hmn, hmx, hb, hmin, hmax⟩ := h
  cases hp : p.2.isNaN with
  | true =>
    have h1 : F64.lt st.Max p.2 = false := F64.lt_of_nan_right _ _ hp
    have h2 : F64.gt st.Min p.2 = false := F64.lt_of_nan_left _ _ hp
    refine ⟨{ st with Sum := F64.add st.Sum p.2 }, by simp [stepStat, h1, h2], hmn, hmx, ?_,
      find?_snoc_old seen p _ _ hmin, find?_snoc_old seen p _ _ hmax⟩
    intro q hq hqn
    rcases List.mem_append.1 hq with hq | hq
    · exact hb q hq hqn
    · simp only [List.mem_singleton] at hq
      subst hq
      rw [hp] at hqn
      exact absurd hqn (by simp)
  | false =>
    cases h1 : F64.lt st.Max p.2 with
    | true =>
      have h2 : F64.gt st.Min p.2 = false :=
        F64.not_lt_of_le _ _ (F64.le_trans _ _ _ hmm (F64.le_of_lt _ _ h1))
      refine ⟨{ st with Max := p.2, MaxDate := p.1, Sum := F64.add st.Sum p.2 },
        by simp [stepStat, h1, h2], hmn, hp, ?_, find?_snoc_old seen p _ _ hmin, ?_⟩
      · intro q hq hqn
        rcases List.mem_append.1 hq with hq | hq
        · exact ⟨(hb q hq hqn).1, F64.le_trans _ _ _ (hb q hq hqn).2 (F64.le_of_lt _ _ h1)⟩
        · simp only [List.mem_singleton] at hq
          subst hq
          exact ⟨F64.le_trans _ _ _ hmm (F64.le_of_lt _ _ h1), F64.le_self _ hp⟩
      · apply find?_snoc_new seen p hp
        intro q hq
        cases hqn : q.2.isNaN with
        | true => simp [F64.eq, hqn]
        | false =>
          exact F64.not_eq_of_lt _ _ (F64.lt_of_le_of_lt _ _ _ (hb q hq hqn).2 h1)
    | false =>
      cases h2 : F64.gt st.Min p.2 with
      | true =>
        have h2' : F64.lt p.2 st.Min = true := h2
        refine ⟨{ st with Min := p.2, MinDate := p.1, Sum := F64.add st.Sum p.2 },
          by simp [stepStat, h1, h2], hp, hmx, ?_, ?_, find?_snoc_old seen p _ _ hmax⟩
        · intro q hq hqn
          rcases List.mem_append.1 hq with hq | hq
          · exact ⟨F64.le_trans _ _ _ (F64.le_of_lt _ _ h2') (hb q hq hqn).1, (hb q hq hqn).2⟩
          · simp only [List.mem_singleton] at hq
            subst hq
            exact ⟨F64.le_self _ hp, F64.le_of_not_lt _ _ hp hmx h1⟩
        · apply find?_snoc_new seen p hp
          intro q hq
          cases hqn : q.2.isNaN with
          | true => simp [F64.eq, hqn]
          | false =>
            exact F64.not_eq_of_gt _ _ (F64.lt_of_lt_of_le _ _ _ h2' (hb q hq hqn).1)
      | false =>
        have h2' : F64.lt p.2 st.Min = false := h2
        refine ⟨{ st with Sum := F64.add st.Sum p.2 }, by simp [stepStat, h1, h2], hmn, hmx, ?_,
          find?_snoc_old seen p _ _ hmin, find?_snoc_old seen p _ _ hmax⟩
        intro q hq hqn
        rcases List.mem_append.1 hq with hq | hq
        · exact hb q hq hqn
        · simp only [List.mem_singleton] at hq
          subst hq
          exact ⟨F64.le_of_not_lt _ _ hmn hp h2', F64.le_of_not_lt _ _ hp hmx h1⟩

theorem summarises_foldl :
    ∀ (rest seen : List (String × F64)) (st : Currency), Summarises seen st →
      ∃ st', rest.foldl stepStat (some st) = some st' ∧ Summarises (seen ++ rest) st' := by
  intro rest
  induction rest with
  | nil => intro seen st h; exact ⟨st, rfl, by simpa using h⟩
  | cons p tl ih =>
    intro seen st h
    obtain ⟨st1, hs1, hinv1⟩ := summarises_step p h
    obtain ⟨st2, hs2, hinv2⟩ := ih (seen ++ [p]) st1 hinv1
    refine ⟨st2, ?_, ?_⟩
    · rw [List.foldl_cons, hs1]; exact hs2
    · simpa using hinv2

/-- Folding the observations of a code from an absent key, the first one not being NaN. -/
theorem summarises_of_observations (obs : List (String × F64))
    (hhead : ∃ p, obs.head? = some p ∧ p.2.isNaN = false) :
    ∃ st, obs.foldl stepStat none = some st ∧ Summarises obs st := by
  cases obs with
  | nil =>
    obtain ⟨p, hp, _⟩ := hhead
    simp at hp
  | cons p tl =>
    obtain ⟨q, hq, hqn⟩ := hhead
    simp only [List.head?_cons, Option.some.injEq] at hq
    subst hq
    obtain ⟨st, hs, hinv⟩ := summarises_foldl tl [p] _ (summarises_first p hqn)
    exact ⟨st, by rw [List.foldl_cons]; exact hs, by simpa using hinv⟩

/-- The statistic of a code that has an observation exists. -/
theorem foldl_stepStat_none (obs : List (String × F64)) (hne : obs ≠ []) :
    ∃ st, obs.foldl stepStat none = some st := by
  cases obs with
  | nil => exact absurd rfl hne
  | cons p tl =>
    rw [List.foldl_cons]
    exact foldl_stepStat_some tl _

theorem sum_stepStat (st : Currency) (p : String × F64) :
    ∃ st', stepStat (some st) p = some st' ∧ st'.Sum = F64.add st.Sum p.2 := by
  refine ⟨_, rfl, ?_⟩
  cases h1 : F64.lt st.Max p.2 <;> cases h2 : F64.gt st.Min p.2 <;> simp [h1, h2]

theorem sum_foldl_stepStat :
    ∀ (rest : List (String × F64)) (st : Currency),
      ∃ st', rest.foldl stepStat (some st) = some st' ∧
        st'.Sum = (rest.map Prod.snd).foldl F64.add st.Sum := by
  intro rest
  induction rest with
  | nil => intro st; exact ⟨st, rfl, rfl⟩
  | cons p tl ih =>
    intro st
    obtain ⟨st1, hs1, hsum1⟩ := sum_stepStat st p
    obtain ⟨st2, hs2, hsum2⟩ := ih st1
    refine ⟨st2, by rw [List.foldl_cons, hs1]; exact hs2, ?_⟩
    rw [hsum2, hsum1]
    rfl

/-- Sum is the running total of the observations folded for the code. -/
theorem sum_of_observations (obs : List (String × F64)) (st : Currency)
    (h : obs.foldl stepStat none = some st) : st.Sum = runningSum (obs.map Prod.snd) := by
  cases obs with
  | nil => simp at h
  | cons p tl =>
    rw [List.foldl_cons] at h
    obtain ⟨st', hs, hsum⟩ := sum_foldl_stepStat tl
      { Min := p.2, Max := p.2, MinDate := p.1, MaxDate := p.1, Sum := p.2 }
    have h0 : stepStat none p =
        some { Min := p.2, Max := p.2, MinDate := p.1, MaxDate := p.1, Sum := p.2 } := rfl
    rw [h0, hs, Option.some.injEq] at h
    subst h
    rw [hsum]
    rfl

/-! ## Independence from the reading of other texts -/

/-- A text read as a plain decimal numeral is read alike whatever `other` is. -/
theorem ParseFloat_mono (other : List Char → Option F64) (s : List Char) (f : F64)
    (h : ParseFloat noOther s = some f) : ParseFloat other s = some f := by
  unfold ParseFloat at h ⊢
  cases hp : parseDecimal s with
  | none => rw [hp] at h; simp [noOther] at h
  | some nk =>
    rw [hp] at h
    obtain ⟨n, k⟩ := nk
    simp only at h ⊢
    exact h

theorem normalized_mono (other : List Char → Option F64) (cur : Valute) (v : F64)
    (h : normalized noOther cur = some v) : normalized other cur = some v := by
  unfold normalized stringToFloat64 at h ⊢
  cases hn : ParseFloat noOther (replaceFirst ',' '.' cur.Nominal.data) with
  | none => rw [hn] at h; simp at h
  | some n =>
    cases hv : ParseFloat noOther (replaceFirst ',' '.' cur.Value.data) with
    | none => rw [hn, hv] at h; simp at h
    | some q =>
      rw [hn, hv] at h
      rw [ParseFloat_mono other _ n hn, ParseFloat_mono other _ q hv]
      exact h

theorem foldlM_loopBody_mono (other : List Char → Option F64) (date : String) :
    ∀ (es : List Valute) (m m' : Store), es.foldlM (loopBody noOther date) m = some m' →
      es.foldlM (loopBody other date) m = some m' := by
  intro es
  induction es with
  | nil => intro m m' h; exact h
  | cons e tl ih =>
    intro m m' h
    rw [List.foldlM_cons, loopBody_eq] at h
    rw [List.foldlM_cons, loopBody_eq]
    cases hn : normalized noOther e with
    | none => rw [hn] at h; simp at h
    | some v =>
      rw [hn] at h
      rw [normalized_mono other e v hn]
      exact ih _ _ h

theorem setCurrencyDalyData_mono (other : List Char → Option F64) (doc : ValCurs)
    (m m' : Store) (h : setCurrencyDalyData noOther doc m = some m') :
    setCurrencyDalyData other doc m = some m' :=
  foldlM_loopBody_mono other doc.Date doc.Valute m m' h

theorem foldDays_mono (other : List Char → Option F64) :
    ∀ (docs : List ValCurs) (m m' : Store), foldDays noOther docs m = some m' →
      foldDays other docs m = some m' := by
  intro docs
  induction docs with
  | nil => intro m m' h; exact h
  | cons d tl ih =>
    intro m m' h
    simp only [foldDays, List.foldlM_cons] at h ⊢
    cases hd : setCurrencyDalyData noOther d m with
    | none => rw [hd] at h; simp at h
    | some m1 =>
      rw [hd] at h
      rw [setCurrencyDalyData_mono other d m m1 hd]
      exact ih m1 m' h

theorem dayObs_mono (other : List Char → Option F64) (c : String) (doc : ValCurs)
    (hp : ∀ cur ∈ doc.Valute, ∃ v, normalized noOther cur = some v) :
    dayObs other c doc = dayObs noOther c doc := by
  unfold dayObs
  apply List.filterMap_congr
  intro cur hcur
  obtain ⟨v, hv⟩ := hp cur hcur
  rw [hv, normalized_mono other cur v hv]

theorem observations_mono (other : List Char → Option F64) (c : String) (docs : List ValCurs)
    (m m' : Store) (h : foldDays noOther docs m = some m') :
    observations other c docs = observations noOther c docs := by
  have hp := normalized_of_foldDays noOther docs m m' h
  unfold observations
  induction docs generalizing m with
  | nil => rfl
  | cons d tl ih =>
    simp only [List.flatMap_cons]
    rw [dayObs_mono other c d (hp d (List.mem_cons_self _ _))]
    simp only [foldDays, List.foldlM_cons] at h
    cases hd : setCurrencyDalyData noOther d m with
    | none => rw [hd] at h; simp at h
    | some m1 =>
      rw [hd] at h
      rw [ih m1 h (fun d0 hd0 => hp d0 (List.mem_cons_of_mem _ hd0))]

/-! ## Evaluation on concrete documents -/

theorem foldDays_usdDocs (other : List Char → Option F64) :
    foldDays other usdDocs [] = some usdStore :=
  foldDays_mono other usdDocs [] usdStore (by decide!)

theorem setCurrencyDalyData_eurDoc (other : List Char → Option F64) :
    setCurrencyDalyData other eurDoc usdStore = some usdEurStore :=
  setCurrencyDalyData_mono other eurDoc usdStore usdEurStore (by decide!)

theorem foldDays_nanDocs (other : List Char → Option F64) :
    foldDays other nanDocs [] = some nanStore :=
  foldDays_mono other nanDocs [] nanStore (by decide!)

theorem observations_nanDocs (other : List Char → Option F64) :
    observations other "USD" nanDocs = [("D1", F64.nan), ("D2", F64.ofNat 7)] := by
  rw [observations_mono other "USD" nanDocs [] nanStore (by decide!)]
  decide!

theorem foldDays_tie (other : List Char → Option F64) :
    foldDays other [tieA, tieB] [] = some [("USD", tieStatAB)] :=
  foldDays_mono other [tieA, tieB] [] _ (by decide!)

theorem observations_tie (other : List Char → Option F64) :
    observations other "USD" [tieA, tieB] = [("D1", F64.ofNat 90), ("D2", F64.ofNat 90)] := by
  rw [observations_mono other "USD" [tieA, tieB] [] [("USD", tieStatAB)] (by decide!)]
  decide!

theorem foldDays_bigDocs (other : List Char → Option F64) :
    foldDays other bigDocs [] = some bigStore :=
  foldDays_mono other bigDocs [] bigStore (by decide!)

theorem observations_bigDocs (other : List Char → Option F64) :
    observations other "USD" bigDocs =
      [("D1", F64.ofNat 9007199254740992), ("D2", F64.ofNat 1), ("D3", F64.ofNat 2)] := by
  rw [observations_mono other "USD" bigDocs [] bigStore (by decide!)]
  decide!

theorem observations_usdDocs (other : List Char → Option F64) :
    observations other "USD" usdDocs =
      [("D1", F64.ofNat 90), ("D2", F64.ofFrac 183 2), ("D3", F64.ofNat 89)] := by
  rw [observations_mono other "USD" usdDocs [] usdStore (by decide!)]
  decide!

/-! ## The aggregate after the window -/

/-- A code occurring in the window has a statistic in the final mapping. -/
theorem get_foldDays_of_mem (other : List Char → Option F64) (docs : List ValCurs) (m : Store)
    (c : String) (h : foldDays other docs [] = some m) (hc : c ∈ codes docs) :
    ∃ st, m.get c = some st := by
  have hne := (mem_codes_iff_observations other docs [] m h c).1 hc
  obtain ⟨st, hs⟩ := foldl_stepStat_none _ hne
  have hfold := get_foldDays other c docs [] m h
  simp only [Store.get] at hfold
  exact ⟨st, by rw [hfold, hs]⟩

/-- The statistic recorded for a code summarises the observations folded for it, when the
first of them is not NaN. -/
theorem summarises_foldDays (other : List Char → Option F64) (docs : List ValCurs) (m : Store)
    (c : String) (st : Currency) (h : foldDays other docs [] = some m)
    (hg : m.get c = some st)
    (hfirst : ∀ p, (observations other c docs).head? = some p → p.2.isNaN = false) :
    Summarises (observations other c docs) st := by
  have hfold := get_foldDays other c docs [] m h
  simp only [Store.get] at hfold
  cases hobs : observations other c docs with
  | nil =>
    rw [hobs, List.foldl_nil, hg] at hfold
    exact absurd hfold (by simp)
  | cons p tl =>
    have hp : p.2.isNaN = false := hfirst p (by rw [hobs]; rfl)
    obtain ⟨st', hs, hinv⟩ := summarises_of_observations (p :: tl) ⟨p, rfl, hp⟩
    rw [hobs, hs, hg, Option.some.injEq] at hfold
    rw [hfold]
    exact hinv

/-- The keys of the final mapping are the codes occurring in the documents. -/
theorem mem_keys_foldDays (other : List Char → Option F64) (docs : List ValCurs) (m : Store)
    (h : foldDays other docs [] = some m) (c : String) : c ∈ m.keys ↔ c ∈ codes docs := by
  constructor
  · intro hk
    rw [Store.mem_keys_iff] at hk
    rw [mem_codes_iff_observations other docs [] m h c]
    intro he
    have hfold := get_foldDays other c docs [] m h
    rw [he] at hfold
    exact hk hfold
  · intro hc
    obtain ⟨st, hg⟩ := get_foldDays_of_mem other docs m c h hc
    rw [Store.mem_keys_iff, hg]
    simp

/-! ## Minimum, maximum and their dates -/

/-- C1, refuted as stated: with nominal 0 and value 0 on the first day the normalized value is
NaN; it becomes Min and Max and stays so, and on the second day the value 7 is folded, so that
neither `Min <= 7` nor `7 <= Max` holds. -/
theorem nan_breaks_bounds :
    (∀ other, foldDays other nanDocs [] = some nanStore) ∧
    "USD" ∈ codes nanDocs ∧
    nanStore.get "USD" = some ⟨F64.nan, "D1", F64.nan, "D1", F64.nan⟩ ∧
    (∀ other, ("D2", F64.ofNat 7) ∈ observations other "USD" nanDocs) ∧
    F64.le F64.nan (F64.ofNat 7) = false ∧ F64.le (F64.ofNat 7) F64.nan = false := by
  refine ⟨foldDays_nanDocs, by decide, rfl, ?_, by decide!, by decide!⟩
  intro other
  rw [observations_nanDocs]
  exact List.mem_cons_of_mem _ (List.mem_singleton.2 rfl)

/-- C1, amended: after folding the documents into the empty mapping, every code occurring in
them whose first folded normalized value is not NaN has a statistic whose Min is below and
whose Max is above every folded normalized value of the code that is not NaN (in the
comparison `<=` of `float64`), Min and Max are themselves folded values of the code, and
Min ≤ Max. -/
theorem min_max_of_folded_values (other : List Char → Option F64) (docs : List ValCurs)
    (m : Store) (c : String) (h : foldDays other docs [] = some m) (hc : c ∈ codes docs)
    (hfirst : ∀ p, (observations other c docs).head? = some p → p.2.isNaN = false) :
    ∃ st, m.get c = some st ∧
      (∀ p ∈ observations other c docs, p.2.isNaN = false →
        F64.le st.Min p.2 = true ∧ F64.le p.2 st.Max = true) ∧
      st.Min ∈ (observations other c docs).map Prod.snd ∧
      st.Max ∈ (observations other c docs).map Prod.snd ∧
      F64.le st.Min st.Max = true := by
  obtain ⟨st, hg⟩ := get_foldDays_of_mem other docs m c h hc
  have hs := summarises_foldDays other docs m c st h hg hfirst
  refine ⟨st, hg, hs.2.2.1, ?_, ?_, hs.min_le_max⟩
  · exact List.mem_map.2 ⟨_, List.mem_of_find?_eq_some hs.2.2.2.1, rfl⟩
  · exact List.mem_map.2 ⟨_, List.mem_of_find?_eq_some hs.2.2.2.2, rfl⟩

theorem min_max_of_folded_values_witness :
    foldDays noOther usdDocs [] = some usdStore ∧ "USD" ∈ codes usdDocs ∧
    (∀ p, (observations noOther "USD" usdDocs).head? = some p → p.2.isNaN = false) ∧
    ∃ st, usdStore.get "USD" = some st ∧
      (∀ p ∈ observations noOther "USD" usdDocs, p.2.isNaN = false →
        F64.le st.Min p.2 = true ∧ F64.le p.2 st.Max = true) ∧
      st.Min ∈ (observations noOther "USD" usdDocs).map Prod.snd ∧
      st.Max ∈ (observations noOther "USD" usdDocs).map Prod.snd ∧
      F64.le st.Min st.Max = true :=
  have hfirst : ∀ p, (observations noOther "USD" usdDocs).head? = some p → p.2.isNaN = false := by
    intro p hp
    rw [observations_usdDocs] at hp
    simp only [List.head?_cons, Option.some.injEq] at hp
    subst hp
    decide!
  ⟨foldDays_usdDocs noOther, by decide, hfirst,
    min_max_of_folded_values noOther usdDocs usdStore "USD" (foldDays_usdDocs noOther)
      (by decide) hfirst⟩

/-- C2, refuted as stated: with nominal 0 and value 0 on the first day, Min and Max are NaN
dated by that day, yet no folded value equals Min or Max (NaN equals nothing), so MinDate is
not the date of an entry whose value equals the final Min. -/
theorem nan_has_no_first_occurrence :
    (∀ other, foldDays other nanDocs [] = some nanStore) ∧
    nanStore.get "USD" = some ⟨F64.nan, "D1", F64.nan, "D1", F64.nan⟩ ∧
    (∀ other, (observations other "USD" nanDocs).find? (fun p => F64.eq p.2 F64.nan) = none) := by
  refine ⟨foldDays_nanDocs, rfl, ?_⟩
  intro other
  rw [observations_nanDocs]
  decide!

/-- C2, amended: after folding the documents into the empty mapping, for every code whose
first folded normalized value is not NaN, MinDate (MaxDate) is the publication date of the
earliest folded record of the code whose normalized value equals the final Min (Max) in the
comparison `==` of `float64`; and a further record of the code whose normalized value equals
the current Min or the current Max changes only Sum. -/
theorem first_occurrence_wins (other : List Char → Option F64) (docs : List ValCurs)
    (m : Store) (c : String) (st : Currency)
    (h : foldDays other docs [] = some m) (hg : m.get c = some st)
    (hfirst : ∀ p, (observations other c docs).head? = some p → p.2.isNaN = false) :
    (observations other c docs).find? (fun p => F64.eq p.2 st.Min) = some (st.MinDate, st.Min) ∧
    (observations other c docs).find? (fun p => F64.eq p.2 st.Max) = some (st.MaxDate, st.Max) ∧
    ∀ (date : String) (cur : Valute) (v : F64), cur.CharCode = c →
      normalized other cur = some v → (F64.eq v st.Min = true ∨ F64.eq v st.Max = true) →
      ∃ m', loopBody other date m cur = some m' ∧
        m'.get c = some { st with Sum := F64.add st.Sum v } := by
  have hs := summarises_foldDays other docs m c st h hg hfirst
  refine ⟨hs.2.2.2.1, hs.2.2.2.2, ?_⟩
  intro date cur v hcode hn hv
  refine ⟨updateEntry date m cur.CharCode v, by rw [loopBody_eq, hn]; rfl, ?_⟩
  rw [get_updateEntry, hcode, if_pos rfl, hg]
  have hmm := hs.min_le_max
  have h1 : F64.lt st.Max v = false := by
    rcases hv with hv | hv
    · exact F64.not_lt_of_le _ _ (F64.le_trans _ _ _ (F64.le_of_eq _ _ hv) hmm)
    · exact F64.not_lt_of_le _ _ (F64.le_of_eq _ _ hv)
  have h2 : F64.gt st.Min v = false := by
    rcases hv with hv | hv
    · exact F64.not_lt_of_le _ _ (F64.le_of_eq _ _ (F64.eq_symm _ _ hv))
    · exact F64.not_lt_of_le _ _ (F64.le_trans _ _ _ hmm (F64.le_of_eq _ _ (F64.eq_symm _ _ hv)))
  simp [stepStat, h1, h2]

theorem first_occurrence_wins_witness :
    foldDays noOther [tieA, tieB] [] = some [("USD", tieStatAB)] ∧
    Store.get [("USD", tieStatAB)] "USD" = some tieStatAB ∧
    (∀ p, (observations noOther "USD" [tieA, tieB]).head? = some p → p.2.isNaN = false) ∧
    (observations noOther "USD" [tieA, tieB]).find? (fun p => F64.eq p.2 tieStatAB.Min) =
      some ("D1", tieStatAB.Min) ∧
    (observations noOther "USD" [tieA, tieB]).find? (fun p => F64.eq p.2 tieStatAB.Max) =
      some ("D1", tieStatAB.Max) :=
  have hfirst : ∀ p, (observations noOther "USD" [tieA, tieB]).head? = some p →
      p.2.isNaN = false := by
    intro p hp
    rw [observations_tie] at hp
    simp only [List.head?_cons, Option.some.injEq] at hp
    subst hp
    decide!
  ⟨foldDays_tie noOther, rfl, hfirst,
    (first_occurrence_wins noOther [tieA, tieB] _ "USD" tieStatAB (foldDays_tie noOther) rfl
      hfirst).1,
    (first_occurrence_wins noOther [tieA, tieB] _ "USD" tieStatAB (foldDays_tie noOther) rfl
      hfirst).2.1⟩

/-! ## Division by one -/

theorem roundHalfEven_mul (k d : Nat) (hd : 0 < d) : roundHalfEven (k * d) d = k := by
  unfold roundHalfEven
  have hq : k * d / d = k := Nat.mul_div_cancel k hd
  have hr : k * d % d = 0 := Nat.mul_mod_left k d
  simp only [hq, hr, Nat.mul_zero, hd, if_true]

/-- Rounding a representable magnitude gives it back. -/
theorem F64.round_exact (neg : Bool) (a u : Nat) (hu : 0 < u) (hlt : a < 2 ^ 2098)
    (hdiv : a % 2 ^ spacingExp a = 0) : F64.round neg (a * u) u = F64.fin neg a := by
  unfold F64.round
  have hq : a * u / u = a := Nat.mul_div_cancel a hu
  have hpos : 0 < u * 2 ^ spacingExp a := Nat.mul_pos hu (Nat.two_pow_pos _)
  have ha : a = a / 2 ^ spacingExp a * 2 ^ spacingExp a :=
    (Nat.div_mul_cancel (Nat.dvd_of_mod_eq_zero hdiv)).symm
  have hnum : a * u = a / 2 ^ spacingExp a * (u * 2 ^ spacingExp a) := by
    calc a * u = a / 2 ^ spacingExp a * 2 ^ spacingExp a * u := by rw [← ha]
      _ = a / 2 ^ spacingExp a * (u * 2 ^ spacingExp a) := by ring
  have hm : roundHalfEven (a * u) (u * 2 ^ spacingExp a) = a / 2 ^ spacingExp a := by
    rw [hnum]
    exact roundHalfEven_mul _ _ hpos
  simp only [hq, hm, ← ha, if_neg (Nat.not_le.2 hlt)]

theorem F64.div_fin_fin (s t : Bool) (a b : Nat) (hb : b ≠ 0) :
    F64.div (F64.fin s a) (F64.fin t b) = F64.round (s != t) (a * 2 ^ 1074) b := by
  unfold F64.div
  exact if_neg hb

theorem F64.ofNat_one : F64.ofNat 1 = F64.fin false (2 ^ 1074) := by decide!

/-- The quotient of a representable value by 1 is that value. -/
theorem F64.div_one (q : F64) (hq : q.representable = true) : F64.div q (F64.ofNat 1) = q := by
  rw [F64.ofNat_one]
  cases q with
  | nan => rfl
  | inf s => cases s <;> rfl
  | fin s a =>
    simp only [F64.representable, decide_eq_true_eq] at hq
    have hu : 0 < 2 ^ 1074 := by positivity
    have hne : 2 ^ 1074 ≠ 0 := by positivity
    have hs : (s != false) = s := by cases s <;> rfl
    rw [F64.div_fin_fin s false a _ hne, hs]
    exact F64.round_exact s a _ hu hq.1 hq.2

/-! ## The total -/

/-- C3, refuted as stated: the days quote 9007199254740992, 1 and 2; the recorded Sum is
9007199254740994 (the first addition rounds 9007199254740993 down), which is not the total
9007199254740995 of the three folded values. -/
theorem sum_is_rounded :
    (∀ other, foldDays other bigDocs [] = some bigStore) ∧
    (∀ other, observations other "USD" bigDocs =
      [("D1", F64.ofNat 9007199254740992), ("D2", F64.ofNat 1), ("D3", F64.ofNat 2)]) ∧
    (bigStore.get "USD").map Currency.Sum = some (F64.ofNat 9007199254740994) ∧
    (F64.ofNat 9007199254740994).signed ≠
      (F64.ofNat 9007199254740992).signed + (F64.ofNat 1).signed + (F64.ofNat 2).signed ∧
    (F64.ofNat 9007199254740994).signed = 9007199254740994 * 2 ^ 1074 ∧
    (F64.ofNat 9007199254740992).signed + (F64.ofNat 1).signed + (F64.ofNat 2).signed =
      9007199254740995 * 2 ^ 1074 :=
  ⟨foldDays_bigDocs, observations_bigDocs, by decide!, by decide!, by decide!, by decide!⟩

/-- C3, amended: after folding the documents into the empty mapping, Sum of a code is the
running `float64` total of the normalized values of all the folded records carrying the code:
the first value, to which each later one is added in fold order, every addition rounded to
`float64`; and the normalized value of a record whose nominal is 1 is its quoted value. -/
theorem sum_of_folded_values (other : List Char → Option F64) (docs : List ValCurs)
    (m : Store) (c : String) (st : Currency)
    (h : foldDays other docs [] = some m) (hg : m.get c = some st) :
    (entriesOf c docs).map (normalized other) =
      (observations other c docs).map (fun p => some p.2) ∧
    st.Sum = runningSum ((observations other c docs).map Prod.snd) ∧
    ∀ (cur : Valute) (q : F64), stringToFloat64 other cur.Nominal = some (F64.ofNat 1) →
      stringToFloat64 other cur.Value = some q → q.representable = true →
      normalized other cur = some q := by
  refine ⟨(observations_eq_entriesOf other c docs (normalized_of_foldDays other docs [] m h)).symm,
    ?_, ?_⟩
  · have hfold := get_foldDays other c docs [] m h
    simp only [Store.get] at hfold
    rw [hg] at hfold
    exact sum_of_observations _ st hfold.symm
  · intro cur q h1 hq hrep
    simp only [normalized, h1, hq, Option.bind_eq_bind, Option.some_bind, pure,
      F64.div_one q hrep]

theorem sum_of_folded_values_witness :
    foldDays noOther bigDocs [] = some bigStore ∧
    bigStore.get "USD" = some bigStat ∧
    bigStat.Sum = runningSum ((observations noOther "USD" bigDocs).map Prod.snd) :=
  ⟨foldDays_bigDocs noOther, rfl,
    (sum_of_folded_values noOther bigDocs bigStore "USD" bigStat
      (foldDays_bigDocs noOther) rfl).2.1⟩

/-! ## One day -/

/-- C9: folding one document keeps every key of the mapping and leaves the statistic of every
code that does not occur in the document as it was; folding a document without records returns
the mapping it was given. -/
theorem frame_of_one_day (other : List Char → Option F64) (doc : ValCurs) (m m' : Store)
    (h : setCurrencyDalyData other doc m = some m') :
    (∀ c, c ∈ m.keys → c ∈ m'.keys) ∧
    (∀ c, c ∉ doc.Valute.map Valute.CharCode → m'.get c = m.get c) ∧
    (∀ (date : String) (m0 : Store), setCurrencyDalyData other ⟨date, []⟩ m0 = some m0) := by
  refine ⟨?_, ?_, ?_⟩
  · intro c hc
    rw [Store.mem_keys_iff] at hc ⊢
    rw [get_setCurrencyDalyData other doc m m' c h]
    cases hg : m.get c with
    | none => exact absurd hg hc
    | some st =>
      obtain ⟨st', hs⟩ := foldl_stepStat_some (dayObs other c doc) st
      rw [hs]
      simp
  · intro c hc
    rw [get_setCurrencyDalyData other doc m m' c h, dayObs_eq_nil_of_not_mem other c doc hc]
    rfl
  · intro date m0
    rfl

theorem frame_of_one_day_witness :
    setCurrencyDalyData noOther eurDoc usdStore = some usdEurStore ∧
    (∀ c, c ∈ usdStore.keys → c ∈ usdEurStore.keys) ∧
    (∀ c, c ∉ eurDoc.Valute.map Valute.CharCode → usdEurStore.get c = usdStore.get c) ∧
    (∀ (date : String) (m0 : Store), setCurrencyDalyData noOther ⟨date, []⟩ m0 = some m0) :=
  ⟨setCurrencyDalyData_eurDoc noOther,
    frame_of_one_day noOther eurDoc usdStore usdEurStore (setCurrencyDalyData_eurDoc noOther)⟩

/-! ## The rows of the report -/

/-- C10: after folding the documents into the empty mapping, the keys are pairwise distinct
and are exactly the codes occurring in the documents; for every traversal order of the mapping
the loop of `main` emits one row per pair, numbered 1, 2, ..., n in that order, and a row is
the footer exactly when its number is n, the size of the mapping. -/
theorem one_row_per_code (other : List Char → Option F64) (docs : List ValCurs) (m : Store)
    (traversal : List (String × Currency))
    (h : foldDays other docs [] = some m) (hperm : traversal.Perm m) :
    m.keys.Nodup ∧ (∀ c, c ∈ m.keys ↔ c ∈ codes docs) ∧
    emitted (mainTable m traversal) =
      (traversal.enumFrom 1).map
        (fun ip => (decide (ip.1 = m.length), mkRow ip.1 ip.2.1 ip.2.2)) ∧
    (emitted (mainTable m traversal)).map (fun r => r.2.count) = List.range' 1 m.length ∧
    ((emitted (mainTable m traversal)).map (fun r => r.2.key)).Perm m.keys ∧
    (emitted (mainTable m traversal)).map Prod.fst =
      (List.range' 1 m.length).map (fun i => decide (i = m.length)) := by
  have hrows := emitted_renderLoop m.length traversal 1
  have hlen : traversal.length = m.length := hperm.length_eq
  have hfst : (traversal.enumFrom 1).map Prod.fst = List.range' 1 m.length := by
    rw [List.enumFrom_map_fst, hlen]
  refine ⟨keys_nodup_foldDays other docs [] m h List.nodup_nil, mem_keys_foldDays other docs m h,
    hrows, ?_, ?_, ?_⟩
  · simp only [mainTable]
    rw [hrows, List.map_map, ← hfst]
    rfl
  · simp only [mainTable]
    rw [hrows, List.map_map]
    have hkeys : (traversal.enumFrom 1).map
        ((fun r : Bool × Row => r.2.key) ∘
          fun ip => (decide (ip.1 = m.length), mkRow ip.1 ip.2.1 ip.2.2)) =
        traversal.map Prod.fst := by
      have : ((fun r : Bool × Row => r.2.key) ∘
          fun ip : Nat × String × Currency =>
            (decide (ip.1 = m.length), mkRow ip.1 ip.2.1 ip.2.2)) =
          Prod.fst ∘ Prod.snd := by
        funext ip; rfl
      rw [this, ← List.map_map, List.enumFrom_map_snd]
    rw [hkeys]
    exact hperm.map Prod.fst
  · simp only [mainTable]
    rw [hrows, List.map_map, ← hfst, List.map_map]
    rfl

theorem one_row_per_code_witness :
    foldDays noOther usdDocs [] = some usdStore ∧ List.Perm usdStore usdStore ∧
    emitted (mainTable usdStore usdStore) =
      (usdStore.enumFrom 1).map
        (fun ip => (decide (ip.1 = usdStore.length), mkRow ip.1 ip.2.1 ip.2.2)) :=
  ⟨foldDays_usdDocs noOther, List.Perm.refl _,
    (one_row_per_code noOther usdDocs usdStore usdStore (foldDays_usdDocs noOther)
      (List.Perm.refl _)).2.2.1⟩

/-! ## The average -/

theorem foldDays_tenthDocs (other : List Char → Option F64) :
    foldDays other tenthDocs [] = some [("USD", tenthStat)] :=
  foldDays_mono other tenthDocs [] _ (by decide!)

theorem foldDays_tinyDocs (other : List Char → Option F64) :
    foldDays other tinyDocs [] = some [("USD", tinyStat)] :=
  foldDays_mono other tinyDocs [] _ (by decide!)

theorem foldDays_usdEur (other : List Char → Option F64) :
    foldDays other (usdDocs ++ [eurDoc]) [] = some usdEurStore :=
  foldDays_mono other (usdDocs ++ [eurDoc]) [] _ (by decide!)

theorem normalized_tenth (other : List Char → Option F64) :
    ∀ cur ∈ entriesOf "USD" tenthDocs, normalized other cur = some tenth := by
  intro cur hcur
  have he : entriesOf "USD" tenthDocs = List.replicate 10 ⟨"USD", "1", "0,1"⟩ := by decide
  rw [he] at hcur
  rw [List.eq_of_mem_replicate hcur]
  exact normalized_mono other _ _ (by decide!)

theorem normalized_tiny (other : List Char → Option F64) :
    ∀ cur ∈ entriesOf "USD" tinyDocs, normalized other cur = some tiny := by
  intro cur hcur
  have he : entriesOf "USD" tinyDocs = List.replicate 89 ⟨"USD", "1", tinyText⟩ := by decide!
  rw [he] at hcur
  rw [List.eq_of_mem_replicate hcur]
  exact normalized_mono other _ _ (by decide!)

/-- C4, refuted as stated. Ten days quote `USD` at 0,1 (k = 10, v the `float64` 0.1): Sum is
0.9999999999999999 and the average shown, Sum ÷ 90, is a finite value that is neither
k·v ÷ 90 nor the `float64` nearest to it. Eighty-nine days quote `USD` at 5·10^-324 (k = 89 < 90,
v the smallest positive `float64`): the average shown is v itself. -/
theorem average_is_not_k_times_v :
    (∀ other, foldDays other tenthDocs [] = some [("USD", tenthStat)]) ∧
    (∀ other, ∀ cur ∈ entriesOf "USD" tenthDocs, normalized other cur = some tenth) ∧
    (entriesOf "USD" tenthDocs).length = 10 ∧
    (mkRow 1 "USD" tenthStat).avg = F64.div belowOne (F64.ofNat 90) ∧
    (mkRow 1 "USD" tenthStat).avg.isNaN = false ∧
    (mkRow 1 "USD" tenthStat).avg.rank = 0 ∧
    (mkRow 1 "USD" tenthStat).avg.signed * 90 ≠ 10 * tenth.signed ∧
    (mkRow 1 "USD" tenthStat).avg ≠ F64.round false (10 * tenth.signed.natAbs) 90 ∧
    (∀ other, foldDays other tinyDocs [] = some [("USD", tinyStat)]) ∧
    (∀ other, ∀ cur ∈ entriesOf "USD" tinyDocs, normalized other cur = some tiny) ∧
    (entriesOf "USD" tinyDocs).length = 89 ∧
    (mkRow 1 "USD" tinyStat).avg = tiny :=
  ⟨foldDays_tenthDocs, normalized_tenth, by decide, by decide!, by decide!, by decide!,
    by decide!, by decide!, foldDays_tinyDocs, normalized_tiny, by decide!, by decide!⟩

/-- The rows of the loop of `main` come from pairs of the traversal. -/
theorem row_of_renderLoop (r : Row) (mLen : Nat) :
    ∀ (t : List (String × Currency)) (count : Nat),
      (TableOp.appendRows r ∈ renderLoop mLen count t ∨
        TableOp.appendFooter r ∈ renderLoop mLen count t) →
      ∃ n k st, (k, st) ∈ t ∧ r = mkRow n k st := by
  intro t
  induction t with
  | nil => intro count hx; simp [renderLoop] at hx
  | cons kv tl ih =>
    intro count hx
    obtain ⟨k, v⟩ := kv
    simp only [renderLoop, List.mem_append] at hx
    have hsplit : (∃ n, r = mkRow n k v) ∨
        (TableOp.appendRows r ∈ renderLoop mLen (count + 1) tl ∨
          TableOp.appendFooter r ∈ renderLoop mLen (count + 1) tl) := by
      by_cases hc : count = mLen
      · subst hc
        simp only [ne_eq, not_true_eq_false, if_false, List.mem_singleton,
          TableOp.appendFooter.injEq] at hx
        rcases hx with (hx | hx) | (hx | hx)
        · exact absurd hx (by simp)
        · exact Or.inr (Or.inl hx)
        · exact Or.inl ⟨_, hx⟩
        · exact Or.inr (Or.inr hx)
      · simp only [ne_eq, hc, not_false_eq_true, if_true, List.mem_cons,
          TableOp.appendRows.injEq, List.mem_singleton] at hx
        rcases hx with (hx | hx) | (hx | hx)
        · rcases hx with hx | hx | hx
          · exact Or.inl ⟨_, hx⟩
          · exact absurd hx (by simp)
          · exact absurd hx (by simp)
        · exact Or.inr (Or.inl hx)
        · rcases hx with hx | hx | hx
          · exact absurd hx (by simp)
          · exact absurd hx (by simp)
          · exact absurd hx (by simp)
        · exact Or.inr (Or.inr hx)
    rcases hsplit with ⟨n, hn⟩ | hrest
    · exact ⟨n, k, v, List.mem_cons_self _ _, hn⟩
    · obtain ⟨n, k', st, hin, hn⟩ := ih (count + 1) hrest
      exact ⟨n, k', st, List.mem_cons_of_mem _ hin, hn⟩

/-- C4, amended: the report shows, for every pair of the final mapping and in both the body
and the footer branch, the `float64` quotient of Sum by 90 as average, whatever the number of
records folded for the code; when the code was folded k times, each time with normalized value
v, Sum is the running `float64` total of k copies of v, and the average is that total ÷ 90. -/
theorem average_over_fixed_period (other : List Char → Option F64) (docs : List ValCurs)
    (m : Store) (traversal : List (String × Currency))
    (h : foldDays other docs [] = some m) (hperm : traversal.Perm m) :
    (emitted (mainTable m traversal)).map (fun r => (r.2.key, r.2.avg)) =
      traversal.map (fun kv => (kv.1, F64.div kv.2.Sum (F64.ofNat 90))) ∧
    ∀ r : Row, (TableOp.appendRows r ∈ mainTable m traversal ∨
        TableOp.appendFooter r ∈ mainTable m traversal) →
      ∃ st, m.get r.key = some st ∧ r.avg = F64.div st.Sum (F64.ofNat 90) ∧
        ∀ v : F64, (∀ cur ∈ entriesOf r.key docs, normalized other cur = some v) →
          st.Sum = runningSum (List.replicate (entriesOf r.key docs).length v) ∧
          r.avg = F64.div (runningSum (List.replicate (entriesOf r.key docs).length v))
            (F64.ofNat 90) := by
  constructor
  · simp only [mainTable]
    rw [emitted_renderLoop m.length traversal 1, List.map_map]
    have hfun : ((fun r : Bool × Row => (r.2.key, r.2.avg)) ∘
        fun ip : Nat × String × Currency =>
          (decide (ip.1 = m.length), mkRow ip.1 ip.2.1 ip.2.2)) =
        (fun kv : String × Currency => (kv.1, F64.div kv.2.Sum (F64.ofNat 90))) ∘ Prod.snd := by
      funext ip; rfl
    rw [hfun, ← List.map_map, List.enumFrom_map_snd]
  · intro r hr
    obtain ⟨n, k, st, hin, hrow⟩ := row_of_renderLoop r m.length traversal 1 hr
    have hnodup := keys_nodup_foldDays other docs [] m h List.nodup_nil
    have hg : m.get k = some st := Store.get_of_mem m hnodup k st (hperm.subset hin)
    have hkey : r.key = k := by rw [hrow]; rfl
    have havg : r.avg = F64.div st.Sum (F64.ofNat 90) := by rw [hrow]; rfl
    refine ⟨st, by rw [hkey]; exact hg, havg, ?_⟩
    intro v hall
    rw [hkey] at hall ⊢
    have hfold := get_foldDays other k docs [] m h
    simp only [Store.get] at hfold
    rw [hg] at hfold
    have hsum := sum_of_observations _ st hfold.symm
    have hobs := observations_eq_entriesOf other k docs (normalized_of_foldDays other docs [] m h)
    have hvals : (observations other k docs).map Prod.snd =
        List.replicate (entriesOf k docs).length v := by
      have h1 : (observations other k docs).map (fun p => some p.2) =
          List.replicate (entriesOf k docs).length (some v) := by
        rw [hobs, List.eq_replicate_iff]
        refine ⟨by simp, ?_⟩
        intro b hb
        obtain ⟨cur, hcur, rfl⟩ := List.mem_map.1 hb
        exact hall cur hcur
      rw [List.eq_replicate_iff] at h1 ⊢
      refine ⟨by simpa using h1.1, ?_⟩
      intro b hb
      obtain ⟨p, hp, rfl⟩ := List.mem_map.1 hb
      have := h1.2 (some p.2) (List.mem_map.2 ⟨p, hp, rfl⟩)
      simpa using this
    rw [hvals] at hsum
    exact ⟨hsum, by rw [havg, hsum]⟩

theorem average_over_fixed_period_witness :
    foldDays noOther (usdDocs ++ [eurDoc]) [] = some usdEurStore ∧
    List.Perm usdEurStore usdEurStore ∧
    (emitted (mainTable usdEurStore usdEurStore)).map (fun r => (r.2.key, r.2.avg)) =
      [("USD", F64.div usdStat.Sum (F64.ofNat 90)), ("EUR", F64.div eurStat.Sum (F64.ofNat 90))] ∧
    emitted (mainTable usdEurStore usdEurStore) =
      [(false, mkRow 1 "USD" usdStat), (true, mkRow 2 "EUR" eurStat)] :=
  ⟨foldDays_usdEur noOther, List.Perm.refl _,
    (average_over_fixed_period noOther (usdDocs ++ [eurDoc]) usdEurStore usdEurStore
      (foldDays_usdEur noOther) (List.Perm.refl _)).1,
    rfl⟩

/-! ## The dates of the window -/

/-- C5, at the failing input. The current time is 2021-06-25 02:30 in a location whose clocks
went forward on 2021-03-28. Eighty-nine days earlier the clock reading 02:30 does not exist,
so `start` is 2021-03-28 03:30 (01:30 UTC); the loop then steps at 03:30 every day, runs its
body 89 times, the last time for 2021-06-24, and ends before the current date, for which
nothing is fetched. -/
theorem window_misses_today :
    (getTimeInterval nightOfJune25).1.unix = 1616895000 ∧
    (getTimeInterval nightOfJune25).2.unix = 1624581000 ∧
    (loopDates 200 (getTimeInterval nightOfJune25).1 (getTimeInterval nightOfJune25).2).map
      List.length = some 89 ∧
    (loopDates 200 (getTimeInterval nightOfJune25).1 (getTimeInterval nightOfJune25).2).map
      (fun dates => (dates.map Time.wall).getLast?) = some (some (1624498200 + 7200)) ∧
    nightOfJune25.wall = 1624581000 + 7200 ∧
    (1624581000 + 7200) / 86400 = (1624498200 + 7200) / 86400 + (1 : Int) := by
  decide!

/-! ## The declared charset -/

/-- C8, refuted as stated: `utf-8` is a charset name other than `windows-1251`, for which the
charset reader would return an error; but a document declaring it is read without asking the
reader, and decoding goes on. -/
theorem utf8_is_not_a_decode_failure :
    "utf-8" ≠ "windows-1251" ∧
    charsetReader "utf-8" = (none, some "unknown charset: utf-8") ∧
    (∀ decodeBody : Option Reader → Option ValCurs,
      decodeWindows1251 "utf-8" decodeBody = decodeBody none) ∧
    decodeWindows1251 "utf-8" (fun _ => some ⟨"D1", []⟩) = some ⟨"D1", []⟩ := by
  refine ⟨by decide, by decide, ?_, by decide⟩
  intro decodeBody
  have h : readAsUTF8 "utf-8" = true := by decide
  simp only [decodeWindows1251, h, if_true]

/-- C8, amended: for every charset name other than `windows-1251` the charset reader returns
no reader and an error, and for `windows-1251` it returns a reader and no error. Decoding a
document that declares an encoding other than `windows-1251` fails (the function panics)
unless the declared encoding is `utf-8` in any letter case or the document declares none:
such a document is read as UTF-8 without the charset reader being asked. -/
theorem unsupported_charset_fails (charset : String) (h : charset ≠ "windows-1251") :
    charsetReader charset = (none, some ("unknown charset: " ++ charset)) ∧
    (readAsUTF8 charset = false →
      ∀ decodeBody : Option Reader → Option ValCurs,
        decodeWindows1251 charset decodeBody = none) ∧
    (readAsUTF8 charset = true →
      ∀ decodeBody : Option Reader → Option ValCurs,
        decodeWindows1251 charset decodeBody = decodeBody none) ∧
    charsetReader "windows-1251" = (some Reader.windows1251Decoder, none) ∧
    (∀ decodeBody : Option Reader → Option ValCurs,
      decodeWindows1251 "windows-1251" decodeBody =
        decodeBody (some Reader.windows1251Decoder)) := by
  refine ⟨?_, ?_, ?_, ?_, ?_⟩
  · simp [charsetReader, h]
  · intro hu decodeBody
    simp [decodeWindows1251, hu, charsetReader, h]
  · intro hu decodeBody
    simp [decodeWindows1251, hu]
  · rfl
  · intro decodeBody
    have hw : readAsUTF8 "windows-1251" = false := by decide
    simp [decodeWindows1251, hw, charsetReader]

theorem unsupported_charset_fails_witness :
    "koi8-r" ≠ "windows-1251" ∧ readAsUTF8 "koi8-r" = false ∧
    charsetReader "koi8-r" = (none, some ("unknown charset: " ++ "koi8-r")) ∧
    ∀ decodeBody : Option Reader → Option ValCurs, decodeWindows1251 "koi8-r" decodeBody = none :=
  ⟨by decide, by decide, (unsupported_charset_fails "koi8-r" (by decide)).1,
    (unsupported_charset_fails "koi8-r" (by decide)).2.1 (by decide)⟩

/-! ## The window in a location without clock changes -/

theorem AddDate_fixed (offset : Int) (t : Time) (days : Int)
    (hloc : t.loc = Location.fixed offset) :
    t.AddDate days = { t with unix := t.unix + 86400 * days } := by
  have hto : ∀ w : Int, (Location.fixed offset).toInstant w = w - offset := by
    intro w
    by_cases h0 : offset = 0
    · simp [Location.toInstant, Location.fixed, h0]
    · simp [Location.toInstant, Location.fixed, h0]
  unfold Time.AddDate Time.wall
  rw [hloc, hto]
  simp only [Location.fixed]
  congr 1
  omega

theorem loopDates_fixed (offset : Int) (n : Nat) :
    ∀ (fuel : Nat) (start stop : Time), start.loc = Location.fixed offset →
      start.nsec = stop.nsec → stop.unix = start.unix + 86400 * n → n + 1 < fuel →
      loopDates fuel start stop =
        some ((List.range (n + 1)).map (fun i : Nat => start.AddDate (i : Int))) := by
  induction n with
  | zero =>
    intro fuel start stop hloc hn hd hf
    obtain ⟨f2, rfl⟩ : ∃ f2, fuel = f2 + 2 := ⟨fuel - 2, by omega⟩
    have h1 := AddDate_fixed offset start 1 hloc
    have h0 := AddDate_fixed offset start ((0 : Nat) : Int) hloc
    have hafter0 : start.After stop = false := by
      simp [Time.After]; omega
    have hafter1 : (start.AddDate 1).After stop = true := by
      rw [h1]
      simp [Time.After]; omega
    rw [loopDates, if_pos hafter0, loopDates, if_neg (by simp [hafter1])]
    simp only [Option.map_some', List.range_succ, List.range_zero, List.nil_append,
      List.map_cons, List.map_nil, h0]
    simp
  | succ k ih =>
    intro fuel start stop hloc hn hd hf
    obtain ⟨f1, rfl⟩ : ∃ f1, fuel = f1 + 1 := ⟨fuel - 1, by omega⟩
    have h1 := AddDate_fixed offset start 1 hloc
    have h0 := AddDate_fixed offset start ((0 : Nat) : Int) hloc
    have hafter0 : start.After stop = false := by
      simp [Time.After]; push_cast at hd; omega
    have hnext := ih f1 (start.AddDate 1) stop (by rw [h1]; exact hloc) (by rw [h1]; exact hn)
      (by rw [h1]; push_cast at hd ⊢; omega) (by omega)
    rw [loopDates, if_pos hafter0, hnext, Option.map_some',
      List.range_succ_eq_map (k + 1), List.map_cons, List.map_map]
    congr 2
    · rw [h0]; simp
    · apply List.map_congr_left
      intro i _
      have hi := AddDate_fixed offset (start.AddDate 1) (i : Int) (by rw [h1]; exact hloc)
      have hs := AddDate_fixed offset start ((Nat.succ i : Nat) : Int) hloc
      simp only [Function.comp]
      rw [hi, hs, h1]
      simp only [Time.mk.injEq, and_true]
      push_cast
      omega

/-- In a location without clock changes the loop of `currencyInfo`, called with the pair
returned by `getTimeInterval`, visits 90 dates: the current date minus 89 days first, each next
one a day later, the current date last. -/
theorem window_in_fixed_zone (offset : Int) (now : Time) (hloc : now.loc = Location.fixed offset) :
    loopDates 91 (getTimeInterval now).1 (getTimeInterval now).2 =
      some ((List.range 90).map (fun i : Nat => now.AddDate ((i : Int) - 89))) := by
  have hstart := AddDate_fixed offset now (-(period : Int) + 1) hloc
  have hl : (getTimeInterval now).1.loc = Location.fixed offset := by
    simp only [getTimeInterval]; rw [hstart]; exact hloc
  rw [loopDates_fixed offset 89 91 (getTimeInterval now).1 (getTimeInterval now).2 hl
    (by simp only [getTimeInterval]; rw [hstart])
    (by simp only [getTimeInterval]; rw [hstart]; simp only [period]; push_cast; omega)
    (by decide)]
  congr 1
  apply List.map_congr_left
  intro i _
  have h1 := AddDate_fixed offset (getTimeInterval now).1 (i : Int) hl
  have h2 := AddDate_fixed offset now ((i : Int) - 89) hloc
  rw [h1, h2]
  simp only [getTimeInterval]
  rw [hstart]
  simp only [period, Time.mk.injEq, and_true]
  push_cast
  omega

/-! ## Folding two days in either order -/

theorem stepStat_some (st : Currency) (p : String × F64) :
    stepStat (some st) p = some
      { Min := if F64.gt st.Min p.2 then p.2 else st.Min,
        MinDate := if F64.gt st.Min p.2 then p.1 else st.MinDate,
        Max := if F64.lt st.Max p.2 then p.2 else st.Max,
        MaxDate := if F64.lt st.Max p.2 then p.1 else st.MaxDate,
        Sum := F64.add st.Sum p.2 } := by
  cases h1 : F64.lt st.Max p.2 <;> cases h2 : F64.gt st.Min p.2 <;> simp [stepStat, h1, h2]

theorem extendsMin_nil (st : Currency) : ExtendsMin st [] st := by
  refine ⟨fun _ => ⟨rfl, rfl⟩, fun hn => ⟨hn, F64.le_self _ hn, ?_, Or.inl ⟨rfl, rfl⟩⟩⟩
  intro p hp
  simp at hp

theorem extendsMax_nil (st : Currency) : ExtendsMax st [] st := by
  refine ⟨fun _ => ⟨rfl, rfl⟩, fun hn => ⟨hn, F64.le_self _ hn, ?_, Or.inl ⟨rfl, rfl⟩⟩⟩
  intro p hp
  simp at hp

theorem extendsMin_step {st st1 : Currency} {seen : List (String × F64)} (p : String × F64)
    (hp : p.2.isNaN = false) (h : ExtendsMin st seen st1) (st' : Currency)
    (hmin : st'.Min = if F64.gt st1.Min p.2 then p.2 else st1.Min)
    (hdate : st'.MinDate = if F64.gt st1.Min p.2 then p.1 else st1.MinDate) :
    ExtendsMin st (seen ++ [p]) st' := by
  obtain ⟨hnan, hfin⟩ := h
  constructor
  · intro hn
    obtain ⟨e1, e2⟩ := hnan hn
    have hgt : F64.gt st1.Min p.2 = false := by
      rw [e1]; exact F64.lt_of_nan_right _ _ hn
    rw [hmin, hdate, hgt]
    exact ⟨e1, e2⟩
  · intro hn
    obtain ⟨h1n, hle, hb, hor⟩ := hfin hn
    cases hgt : F64.gt st1.Min p.2 with
    | true =>
      have hlt : F64.lt p.2 st1.Min = true := hgt
      rw [hgt] at hmin hdate
      simp only [if_true] at hmin hdate
      rw [hmin, hdate]
      refine ⟨hp, F64.le_of_lt _ _ (F64.lt_of_lt_of_le _ _ _ hlt hle), ?_, Or.inr ⟨?_, ?_⟩⟩
      · intro q hq
        rcases List.mem_append.1 hq with hq | hq
        · exact F64.le_of_lt _ _ (F64.lt_of_lt_of_le _ _ _ hlt (hb q hq))
        · simp only [List.mem_singleton] at hq
          subst hq
          exact F64.le_self _ hp
      · exact F64.lt_of_lt_of_le _ _ _ hlt hle
      · apply find?_snoc_new seen p hp
        intro q hq
        exact F64.not_eq_of_gt _ _ (F64.lt_of_lt_of_le _ _ _ hlt (hb q hq))
    | false =>
      have hlt : F64.lt p.2 st1.Min = false := hgt
      rw [hgt] at hmin hdate
      simp only [Bool.false_eq_true, if_false] at hmin hdate
      rw [hmin, hdate]
      refine ⟨h1n, hle, ?_, ?_⟩
      · intro q hq
        rcases List.mem_append.1 hq with hq | hq
        · exact hb q hq
        · simp only [List.mem_singleton] at hq
          subst hq
          exact F64.le_of_not_lt _ _ h1n hp hlt
      · rcases hor with hor | hor
        · exact Or.inl hor
        · exact Or.inr ⟨hor.1, find?_snoc_old seen p _ _ hor.2⟩

theorem extendsMax_step {st st1 : Currency} {seen : List (String × F64)} (p : String × F64)
    (hp : p.2.isNaN = false) (h : ExtendsMax st seen st1) (st' : Currency)
    (hmax : st'.Max = if F64.lt st1.Max p.2 then p.2 else st1.Max)
    (hdate : st'.MaxDate = if F64.lt st1.Max p.2 then p.1 else st1.MaxDate) :
    ExtendsMax st (seen ++ [p]) st' := by
  obtain ⟨hnan, hfin⟩ := h
  constructor
  · intro hn
    obtain ⟨e1, e2⟩ := hnan hn
    have hlt : F64.lt st1.Max p.2 = false := by
      rw [e1]; exact F64.lt_of_nan_left _ _ hn
    rw [hmax, hdate, hlt]
    exact ⟨e1, e2⟩
  · intro hn
    obtain ⟨h1n, hle, hb, hor⟩ := hfin hn
    cases hlt : F64.lt st1.Max p.2 with
    | true =>
      rw [hlt] at hmax hdate
      simp only [if_true] at hmax hdate
      rw [hmax, hdate]
      refine ⟨hp, F64.le_of_lt _ _ (F64.lt_of_le_of_lt _ _ _ hle hlt), ?_, Or.inr ⟨?_, ?_⟩⟩
      · intro q hq
        rcases List.mem_append.1 hq with hq | hq
        · exact F64.le_of_lt _ _ (F64.lt_of_le_of_lt _ _ _ (hb q hq) hlt)
        · simp only [List.mem_singleton] at hq
          subst hq
          exact F64.le_self _ hp
      · exact F64.lt_of_le_of_lt _ _ _ hle hlt
      · apply find?_snoc_new seen p hp
        intro q hq
        exact F64.not_eq_of_lt _ _ (F64.lt_of_le_of_lt _ _ _ (hb q hq) hlt)
    | false =>
      rw [hlt] at hmax hdate
      simp only [Bool.false_eq_true, if_false] at hmax hdate
      rw [hmax, hdate]
      refine ⟨h1n, hle, ?_, ?_⟩
      · intro q hq
        rcases List.mem_append.1 hq with hq | hq
        · exact hb q hq
        · simp only [List.mem_singleton] at hq
          subst hq
          exact F64.le_of_not_lt _ _ hp h1n hlt
      · rcases hor with hor | hor
        · exact Or.inl hor
        · exact Or.inr ⟨hor.1, find?_snoc_old seen p _ _ hor.2⟩

theorem extends_foldl (st : Currency) :
    ∀ (rest seen : List (String × F64)) (st1 : Currency),
      (∀ p ∈ rest, p.2.isNaN = false) → ExtendsMin st seen st1 → ExtendsMax st seen st1 →
      ∃ st', rest.foldl stepStat (some st1) = some st' ∧
        ExtendsMin st (seen ++ rest) st' ∧ ExtendsMax st (seen ++ rest) st' := by
  intro rest
  induction rest with
  | nil => intro seen st1 _ h1 h2; exact ⟨st1, rfl, by simpa using h1, by simpa using h2⟩
  | cons p tl ih =>
    intro seen st1 hnn h1 h2
    have hp := hnn p (List.mem_cons_self _ _)
    have e1 := extendsMin_step p hp h1
      { Min := if F64.gt st1.Min p.2 then p.2 else st1.Min,
        MinDate := if F64.gt st1.Min p.2 then p.1 else st1.MinDate,
        Max := if F64.lt st1.Max p.2 then p.2 else st1.Max,
        MaxDate := if F64.lt st1.Max p.2 then p.1 else st1.MaxDate,
        Sum := F64.add st1.Sum p.2 } rfl rfl
    have e2 := extendsMax_step p hp h2
      { Min := if F64.gt st1.Min p.2 then p.2 else st1.Min,
        MinDate := if F64.gt st1.Min p.2 then p.1 else st1.MinDate,
        Max := if F64.lt st1.Max p.2 then p.2 else st1.Max,
        MaxDate := if F64.lt st1.Max p.2 then p.1 else st1.MaxDate,
        Sum := F64.add st1.Sum p.2 } rfl rfl
    obtain ⟨st3, hs3, h3, h4⟩ := ih (seen ++ [p]) _
      (fun q hq => hnn q (List.mem_cons_of_mem _ hq)) e1 e2
    refine ⟨st3, ?_, by simpa using h3, by simpa using h4⟩
    rw [List.foldl_cons, stepStat_some]
    exact hs3

theorem F64.add_comm (x y : F64) : F64.add x y = F64.add y x := by
  cases x with
  | nan => cases y <;> rfl
  | inf s =>
    cases y with
    | nan => rfl
    | inf t => cases s <;> cases t <;> rfl
    | fin t b => rfl
  | fin s a =>
    cases y with
    | nan => rfl
    | inf t => rfl
    | fin t b =>
      simp only [F64.add]
      rw [Int.add_comm (F64.fin s a).signed (F64.fin t b).signed, Bool.and_comm s t]

theorem dayObs_date (other : List Char → Option F64) (c : String) (doc : ValCurs) :
    ∀ p ∈ dayObs other c doc, p.1 = doc.Date := by
  intro p hp
  simp only [dayObs, List.mem_filterMap] at hp
  obtain ⟨cur, _, hif⟩ := hp
  by_cases hc : cur.CharCode = c
  · simp only [hc, if_true, Option.map_eq_some'] at hif
    obtain ⟨v, _, rfl⟩ := hif
    rfl
  · simp [hc] at hif

/-- The first observation equal to a value is dated alike in the two orders of two days, unless
both days have such an observation and their dates differ. -/
theorem find?_dates_comm (a b : List (String × F64)) (x : F64) (dA dB : String)
    (r1 r2 : String × F64) (ha : ∀ p ∈ a, p.1 = dA) (hb : ∀ q ∈ b, q.1 = dB)
    (h1 : (a ++ b).find? (fun p => F64.eq p.2 x) = some r1)
    (h2 : (b ++ a).find? (fun p => F64.eq p.2 x) = some r2)
    (hcond : (∀ p ∈ a, F64.eq p.2 x = false) ∨ (∀ q ∈ b, F64.eq q.2 x = false) ∨ dA = dB) :
    r1.1 = r2.1 := by
  rw [List.find?_append] at h1 h2
  cases hfa : a.find? (fun p => F64.eq p.2 x) with
  | none =>
    rw [hfa] at h1 h2
    simp only [Option.or_none, Option.none_or] at h1 h2
    rw [h1, Option.some.injEq] at h2
    rw [h2]
  | some ra =>
    cases hfb : b.find? (fun p => F64.eq p.2 x) with
    | none =>
      rw [hfa, hfb] at h1 h2
      simp only [Option.or_none, Option.none_or, Option.or_some] at h1 h2
      rw [h1, Option.some.injEq] at h2
      rw [h2]
    | some rb =>
      rw [hfa, hfb] at h1 h2
      simp only [Option.or_some, Option.some.injEq] at h1 h2
      subst h1 h2
      have hma := List.mem_of_find?_eq_some hfa
      have hmb := List.mem_of_find?_eq_some hfb
      have hpa := List.find?_some hfa
      have hpb := List.find?_some hfb
      rcases hcond with hc | hc | hc
      · rw [hc _ hma] at hpa
        exact absurd hpa (by simp)
      · rw [hc _ hmb] at hpb
        exact absurd hpb (by simp)
      · rw [ha _ hma, hb _ hmb, hc]

theorem find?_eq_congr (l : List (String × F64)) (x y : F64) (h : F64.eq x y = true) :
    l.find? (fun p => F64.eq p.2 x) = l.find? (fun p => F64.eq p.2 y) := by
  have : (fun p : String × F64 => F64.eq p.2 x) = (fun p => F64.eq p.2 y) := by
    funext p
    exact F64.eq_congr_right x y p.2 h
  rw [this]

theorem extendsMin_comm {st s1 s2 : Currency} {a b : List (String × F64)} (dA dB : String)
    (ha : ∀ p ∈ a, p.1 = dA) (hb : ∀ q ∈ b, q.1 = dB)
    (h1 : ExtendsMin st (a ++ b) s1) (h2 : ExtendsMin st (b ++ a) s2) :
    sameFloat s1.Min s2.Min ∧
    (((∀ p ∈ a, F64.eq p.2 s1.Min = false) ∨ (∀ q ∈ b, F64.eq q.2 s1.Min = false) ∨ dA = dB ∨
        st.Min.isNaN = true ∨ F64.le st.Min s1.Min = true) → s1.MinDate = s2.MinDate) := by
  cases hn : st.Min.isNaN with
  | true =>
    obtain ⟨e1, d1⟩ := h1.1 hn
    obtain ⟨e2, d2⟩ := h2.1 hn
    exact ⟨Or.inl (by rw [e1, e2]), fun _ => by rw [d1, d2]⟩
  | false =>
    obtain ⟨n1, le1, b1, or1⟩ := h1.2 hn
    obtain ⟨n2, le2, b2, or2⟩ := h2.2 hn
    have hperm : (a ++ b).Perm (b ++ a) := List.perm_append_comm
    have h12 : F64.le s1.Min s2.Min = true := by
      rcases or2 with h | h
      · rw [h.1]; exact le1
      · exact b1 _ (hperm.symm.subset (List.mem_of_find?_eq_some h.2))
    have h21 : F64.le s2.Min s1.Min = true := by
      rcases or1 with h | h
      · rw [h.1]; exact le2
      · exact b2 _ (hperm.subset (List.mem_of_find?_eq_some h.2))
    have heq : F64.eq s1.Min s2.Min = true := F64.eq_of_le_of_le _ _ h12 h21
    refine ⟨Or.inr heq, ?_⟩
    intro hcond
    rcases or1 with h | h <;> rcases or2 with h' | h'
    · rw [h.2, h'.2]
    · have : F64.lt s2.Min s1.Min = true := by rw [h.1]; exact h'.1
      rw [F64.not_lt_of_le _ _ h12] at this
      exact absurd this (by simp)
    · have : F64.lt s1.Min s2.Min = true := by rw [h'.1]; exact h.1
      rw [F64.not_lt_of_le _ _ h21] at this
      exact absurd this (by simp)
    · have hc3 : (∀ p ∈ a, F64.eq p.2 s1.Min = false) ∨ (∀ q ∈ b, F64.eq q.2 s1.Min = false) ∨
          dA = dB := by
        rcases hcond with hc | hc | hc | hc | hc
        · exact Or.inl hc
        · exact Or.inr (Or.inl hc)
        · exact Or.inr (Or.inr hc)
        · exact absurd hc (by simp)
        · have := h.1
          rw [F64.not_lt_of_le _ _ hc] at this
          exact absurd this (by simp)
      have e2 := h'.2
      rw [← find?_eq_congr _ _ _ heq] at e2
      exact find?_dates_comm a b s1.Min dA dB _ _ ha hb h.2 e2 hc3

theorem extendsMax_comm {st s1 s2 : Currency} {a b : List (String × F64)} (dA dB : String)
    (ha : ∀ p ∈ a, p.1 = dA) (hb : ∀ q ∈ b, q.1 = dB)
    (h1 : ExtendsMax st (a ++ b) s1) (h2 : ExtendsMax st (b ++ a) s2) :
    sameFloat s1.Max s2.Max ∧
    (((∀ p ∈ a, F64.eq p.2 s1.Max = false) ∨ (∀ q ∈ b, F64.eq q.2 s1.Max = false) ∨ dA = dB ∨
        st.Max.isNaN = true ∨ F64.le s1.Max st.Max = true) → s1.MaxDate = s2.MaxDate) := by
  cases hn : st.Max.isNaN with
  | true =>
    obtain ⟨e1, d1⟩ := h1.1 hn
    obtain ⟨e2, d2⟩ := h2.1 hn
    exact ⟨Or.inl (by rw [e1, e2]), fun _ => by rw [d1, d2]⟩
  | false =>
    obtain ⟨n1, le1, b1, or1⟩ := h1.2 hn
    obtain ⟨n2, le2, b2, or2⟩ := h2.2 hn
    have hperm : (a ++ b).Perm (b ++ a) := List.perm_append_comm
    have h21 : F64.le s2.Max s1.Max = true := by
      rcases or2 with h | h
      · rw [h.1]; exact le1
      · exact b1 _ (hperm.symm.subset (List.mem_of_find?_eq_some h.2))
    have h12 : F64.le s1.Max s2.Max = true := by
      rcases or1 with h | h
      · rw [h.1]; exact le2
      · exact b2 _ (hperm.subset (List.mem_of_find?_eq_some h.2))
    have heq : F64.eq s1.Max s2.Max = true := F64.eq_of_le_of_le _ _ h12 h21
    refine ⟨Or.inr heq, ?_⟩
    intro hcond
    rcases or1 with h | h <;> rcases or2 with h' | h'
    · rw [h.2, h'.2]
    · have : F64.lt s1.Max s2.Max = true := by rw [h.1]; exact h'.1
      rw [F64.not_lt_of_le _ _ h21] at this
      exact absurd this (by simp)
    · have : F64.lt s2.Max s1.Max = true := by rw [h'.1]; exact h.1
      rw [F64.not_lt_of_le _ _ h12] at this
      exact absurd this (by simp)
    · have hc3 : (∀ p ∈ a, F64.eq p.2 s1.Max = false) ∨ (∀ q ∈ b, F64.eq q.2 s1.Max = false) ∨
          dA = dB := by
        rcases hcond with hc | hc | hc | hc | hc
        · exact Or.inl hc
        · exact Or.inr (Or.inl hc)
        · exact Or.inr (Or.inr hc)
        · exact absurd hc (by simp)
        · have := h.1
          rw [F64.not_lt_of_le _ _ hc] at this
          exact absurd this (by simp)
      have e2 := h'.2
      rw [← find?_eq_congr _ _ _ heq] at e2
      exact find?_dates_comm a b s1.Max dA dB _ _ ha hb h.2 e2 hc3

/-- The same facts for a code that is absent before the two days. -/
theorem summarises_comm {s1 s2 : Currency} {a b : List (String × F64)} (dA dB : String)
    (ha : ∀ p ∈ a, p.1 = dA) (hb : ∀ q ∈ b, q.1 = dB)
    (h1 : Summarises (a ++ b) s1) (h2 : Summarises (b ++ a) s2) :
    sameFloat s1.Min s2.Min ∧ sameFloat s1.Max s2.Max ∧
    (((∀ p ∈ a, F64.eq p.2 s1.Min = false) ∨ (∀ q ∈ b, F64.eq q.2 s1.Min = false) ∨ dA = dB) →
      s1.MinDate = s2.MinDate) ∧
    (((∀ p ∈ a, F64.eq p.2 s1.Max = false) ∨ (∀ q ∈ b, F64.eq q.2 s1.Max = false) ∨ dA = dB) →
      s1.MaxDate = s2.MaxDate) := by
  have hp : (a ++ b).Perm (b ++ a) := List.perm_append_comm
  obtain ⟨n1, x1, hb1, hmin1, hmax1⟩ := h1
  obtain ⟨n2, x2, hb2, hmin2, hmax2⟩ := h2
  have hmin : F64.eq s1.Min s2.Min = true :=
    F64.eq_of_le_of_le _ _ (hb1 _ (hp.symm.subset (List.mem_of_find?_eq_some hmin2)) n2).1
      (hb2 _ (hp.subset (List.mem_of_find?_eq_some hmin1)) n1).1
  have hmax : F64.eq s1.Max s2.Max = true :=
    F64.eq_of_le_of_le _ _ (hb2 _ (hp.subset (List.mem_of_find?_eq_some hmax1)) x1).2
      (hb1 _ (hp.symm.subset (List.mem_of_find?_eq_some hmax2)) x2).2
  refine ⟨Or.inr hmin, Or.inr hmax, ?_, ?_⟩
  · intro hc
    have e2 := hmin2
    rw [← find?_eq_congr _ _ _ hmin] at e2
    exact find?_dates_comm a b s1.Min dA dB _ _ ha hb hmin1 e2 hc
  · intro hc
    have e2 := hmax2
    rw [← find?_eq_congr _ _ _ hmax] at e2
    exact find?_dates_comm a b s1.Max dA dB _ _ ha hb hmax1 e2 hc

/-- Sum after folding observations, from the prior Sum if any. -/
theorem sum_totalFrom (o : Option Currency) (l : List (String × F64)) (st : Currency)
    (h : l.foldl stepStat o = some st) :
    some st.Sum = totalFrom (o.map Currency.Sum) (l.map Prod.snd) := by
  cases o with
  | some s0 =>
    obtain ⟨st', hs, hsum⟩ := sum_foldl_stepStat l s0
    rw [hs, Option.some.injEq] at h
    subst h
    rw [hsum]
    rfl
  | none =>
    cases l with
    | nil => simp at h
    | cons p tl =>
      have := sum_of_observations (p :: tl) st h
      rw [this]
      rfl

/-- The fold over the documents returns as soon as every record can be parsed. -/
theorem foldDays_returns (other : List Char → Option F64) :
    ∀ (docs : List ValCurs) (m : Store),
      (∀ d ∈ docs, ∀ cur ∈ d.Valute, ∃ v, normalized other cur = some v) →
      ∃ m', foldDays other docs m = some m' := by
  have hday : ∀ (date : String) (es : List Valute) (m : Store),
      (∀ cur ∈ es, ∃ v, normalized other cur = some v) →
      ∃ m', es.foldlM (loopBody other date) m = some m' := by
    intro date es
    induction es with
    | nil => intro m _; exact ⟨m, rfl⟩
    | cons e tl ih =>
      intro m hall
      obtain ⟨v, hv⟩ := hall e (List.mem_cons_self _ _)
      obtain ⟨m', hm'⟩ := ih (updateEntry date m e.CharCode v)
        (fun cur hcur => hall cur (List.mem_cons_of_mem _ hcur))
      refine ⟨m', ?_⟩
      rw [List.foldlM_cons, loopBody_eq, hv]
      exact hm'
  intro docs
  induction docs with
  | nil => intro m _; exact ⟨m, rfl⟩
  | cons d tl ih =>
    intro m hall
    obtain ⟨m1, hm1⟩ := hday d.Date d.Valute m (hall d (List.mem_cons_self _ _))
    obtain ⟨m', hm'⟩ := ih m1 (fun d0 hd0 => hall d0 (List.mem_cons_of_mem _ hd0))
    refine ⟨m', ?_⟩
    simp only [foldDays, List.foldlM_cons]
    have hm1' : setCurrencyDalyData other d m = some m1 := hm1
    rw [hm1']
    exact hm'

theorem bind_setCurrencyDalyData (other : List Char → Option F64) (A B : ValCurs) (m : Store) :
    (setCurrencyDalyData other A m).bind (setCurrencyDalyData other B) =
      foldDays other [A, B] m := by
  simp only [foldDays, List.foldlM_cons, List.foldlM_nil, Option.bind_eq_bind]
  cases setCurrencyDalyData other A m with
  | none => rfl
  | some m1 =>
    simp only [Option.some_bind]
    cases setCurrencyDalyData other B m1 <;> rfl

theorem observations_pair (other : List Char → Option F64) (c : String) (A B : ValCurs) :
    observations other c [A, B] = dayObs other c A ++ dayObs other c B := by
  simp [observations]

theorem tie_A_then_B (other : List Char → Option F64) :
    (setCurrencyDalyData other tieA []).bind (setCurrencyDalyData other tieB) =
      some [("USD", tieStatAB)] := by
  rw [bind_setCurrencyDalyData]
  exact foldDays_mono other [tieA, tieB] [] _ (by decide!)

theorem tie_B_then_A (other : List Char → Option F64) :
    (setCurrencyDalyData other tieB []).bind (setCurrencyDalyData other tieA) =
      some [("USD", tieStatBA)] := by
  rw [bind_setCurrencyDalyData]
  exact foldDays_mono other [tieB, tieA] [] _ (by decide!)

theorem big_one_then_two (other : List Char → Option F64) :
    (setCurrencyDalyData other oneDoc bigPrior).bind (setCurrencyDalyData other twoDoc) =
      some [("USD", bigStat12)] := by
  rw [bind_setCurrencyDalyData]
  exact foldDays_mono other [oneDoc, twoDoc] bigPrior _ (by decide!)

theorem big_two_then_one (other : List Char → Option F64) :
    (setCurrencyDalyData other twoDoc bigPrior).bind (setCurrencyDalyData other oneDoc) =
      some [("USD", bigStat21)] := by
  rw [bind_setCurrencyDalyData]
  exact foldDays_mono other [twoDoc, oneDoc] bigPrior _ (by decide!)

theorem day_one_then_two (other : List Char → Option F64) :
    (setCurrencyDalyData other dayOne []).bind (setCurrencyDalyData other dayTwo) =
      some [("USD", twoDayStat)] := by
  rw [bind_setCurrencyDalyData]
  exact foldDays_mono other [dayOne, dayTwo] [] _ (by decide!)

/-- C6, refuted as stated. Two days quoting `USD` at the same value give, folded into the empty
mapping in the two orders, statistics of `USD` with different MinDate and MaxDate. And folding
the values 1 and 2 into a mapping whose Sum is 9007199254740992 gives Sum 9007199254740994 in
one order and 9007199254740996 in the other. -/
theorem fold_order_changes_dates :
    (∀ other, (setCurrencyDalyData other tieA []).bind (setCurrencyDalyData other tieB) =
      some [("USD", tieStatAB)]) ∧
    (∀ other, (setCurrencyDalyData other tieB []).bind (setCurrencyDalyData other tieA) =
      some [("USD", tieStatBA)]) ∧
    tieStatAB.MinDate = "D1" ∧ tieStatBA.MinDate = "D2" ∧
    tieStatAB.MaxDate = "D1" ∧ tieStatBA.MaxDate = "D2" ∧
    tieStatAB ≠ tieStatBA ∧
    (∀ other, (setCurrencyDalyData other oneDoc bigPrior).bind
      (setCurrencyDalyData other twoDoc) = some [("USD", bigStat12)]) ∧
    (∀ other, (setCurrencyDalyData other twoDoc bigPrior).bind
      (setCurrencyDalyData other oneDoc) = some [("USD", bigStat21)]) ∧
    bigStat12.Sum = F64.ofNat 9007199254740994 ∧
    bigStat21.Sum = F64.ofNat 9007199254740996 ∧
    F64.eq bigStat12.Sum bigStat21.Sum = false :=
  ⟨tie_A_then_B, tie_B_then_A, rfl, rfl, rfl, rfl, by decide!, big_one_then_two,
    big_two_then_one, by decide!, by decide!, by decide!⟩

/-- C6, amended. When folding the document A and then the document B into a mapping returns,
so does folding B and then A, and the two results have the same keys. For every code, Sum is in
each order the running `float64` total, from the prior Sum if any, of the normalized values in
that order. For every code none of whose normalized values in A and B is NaN, Min and Max are
the same `float64` value in the two orders, and MinDate (MaxDate) is the same too unless both
documents have a record of the code whose normalized value equals the final Min (Max), their
publication dates differ, and the mapping held no Min at or below (Max at or above) that
value before. -/
theorem fold_order_independent_values (other : List Char → Option F64) (m : Store)
    (A B : ValCurs) (m1 : Store)
    (h : (setCurrencyDalyData other A m).bind (setCurrencyDalyData other B) = some m1) :
    ∃ m2, (setCurrencyDalyData other B m).bind (setCurrencyDalyData other A) = some m2 ∧
      ∀ c, (m1.get c = none ↔ m2.get c = none) ∧
        ∀ s1 s2, m1.get c = some s1 → m2.get c = some s2 →
          some s1.Sum = totalFrom ((m.get c).map Currency.Sum)
            ((dayObs other c A ++ dayObs other c B).map Prod.snd) ∧
          some s2.Sum = totalFrom ((m.get c).map Currency.Sum)
            ((dayObs other c B ++ dayObs other c A).map Prod.snd) ∧
          ((∀ p ∈ dayObs other c A ++ dayObs other c B, p.2.isNaN = false) →
            sameFloat s1.Min s2.Min ∧ sameFloat s1.Max s2.Max ∧
            (((∀ p ∈ dayObs other c A, F64.eq p.2 s1.Min = false) ∨
                (∀ q ∈ dayObs other c B, F64.eq q.2 s1.Min = false) ∨ A.Date = B.Date ∨
                (∃ st, m.get c = some st ∧
                  (st.Min.isNaN = true ∨ F64.le st.Min s1.Min = true))) →
              s1.MinDate = s2.MinDate) ∧
            (((∀ p ∈ dayObs other c A, F64.eq p.2 s1.Max = false) ∨
                (∀ q ∈ dayObs other c B, F64.eq q.2 s1.Max = false) ∨ A.Date = B.Date ∨
                (∃ st, m.get c = some st ∧
                  (st.Max.isNaN = true ∨ F64.le s1.Max st.Max = true))) →
              s1.MaxDate = s2.MaxDate)) := by
  rw [bind_setCurrencyDalyData] at h
  have hparsed := normalized_of_foldDays other [A, B] m m1 h
  obtain ⟨m2, hm2⟩ := foldDays_returns other [B, A] m (by
    intro d hd
    apply hparsed d
    simp only [List.mem_cons, List.mem_singleton, List.not_mem_nil, or_false] at hd ⊢
    exact hd.symm)
  refine ⟨m2, by rw [bind_setCurrencyDalyData]; exact hm2, ?_⟩
  intro c
  have g1 := get_foldDays other c [A, B] m m1 h
  have g2 := get_foldDays other c [B, A] m m2 hm2
  rw [observations_pair] at g1 g2
  have hA := dayObs_date other c A
  have hB := dayObs_date other c B
  cases hg : m.get c with
  | some st =>
    rw [hg] at g1 g2
    obtain ⟨t1, ht1⟩ := foldl_stepStat_some (dayObs other c A ++ dayObs other c B) st
    obtain ⟨t2, ht2⟩ := foldl_stepStat_some (dayObs other c B ++ dayObs other c A) st
    have hsum1 := sum_totalFrom (some st) _ t1 ht1
    have hsum2 := sum_totalFrom (some st) _ t2 ht2
    rw [ht1] at g1
    rw [ht2] at g2
    refine ⟨by rw [g1, g2]; simp, ?_⟩
    intro s1 s2 hs1 hs2
    rw [g1, Option.some.injEq] at hs1
    rw [g2, Option.some.injEq] at hs2
    subst hs1 hs2
    refine ⟨hsum1, hsum2, ?_⟩
    intro hnn
    have hnn2 : ∀ p ∈ dayObs other c B ++ dayObs other c A, p.2.isNaN = false := by
      intro p hp
      apply hnn p
      rcases List.mem_append.1 hp with hp | hp
      · exact List.mem_append.2 (Or.inr hp)
      · exact List.mem_append.2 (Or.inl hp)
    obtain ⟨u1, hu1, emin1, emax1⟩ := extends_foldl st _ [] st hnn (extendsMin_nil st)
      (extendsMax_nil st)
    obtain ⟨u2, hu2, emin2, emax2⟩ := extends_foldl st _ [] st hnn2 (extendsMin_nil st)
      (extendsMax_nil st)
    rw [ht1, Option.some.injEq] at hu1
    rw [ht2, Option.some.injEq] at hu2
    subst hu1 hu2
    rw [List.nil_append] at emin1 emax1 emin2 emax2
    obtain ⟨smin, dmin⟩ := extendsMin_comm A.Date B.Date hA hB emin1 emin2
    obtain ⟨smax, dmax⟩ := extendsMax_comm A.Date B.Date hA hB emax1 emax2
    refine ⟨smin, smax, ?_, ?_⟩
    · intro hc
      apply dmin
      rcases hc with hc | hc | hc | ⟨st0, hst0, hc⟩
      · exact Or.inl hc
      · exact Or.inr (Or.inl hc)
      · exact Or.inr (Or.inr (Or.inl hc))
      · rw [Option.some.injEq] at hst0
        subst hst0
        rcases hc with hc | hc
        · exact Or.inr (Or.inr (Or.inr (Or.inl hc)))
        · exact Or.inr (Or.inr (Or.inr (Or.inr hc)))
    · intro hc
      apply dmax
      rcases hc with hc | hc | hc | ⟨st0, hst0, hc⟩
      · exact Or.inl hc
      · exact Or.inr (Or.inl hc)
      · exact Or.inr (Or.inr (Or.inl hc))
      · rw [Option.some.injEq] at hst0
        subst hst0
        rcases hc with hc | hc
        · exact Or.inr (Or.inr (Or.inr (Or.inl hc)))
        · exact Or.inr (Or.inr (Or.inr (Or.inr hc)))
  | none =>
    rw [hg] at g1 g2
    by_cases hne : dayObs other c A ++ dayObs other c B = []
    · have hba : dayObs other c B ++ dayObs other c A = [] := by
        simp only [List.append_eq_nil] at hne ⊢
        exact ⟨hne.2, hne.1⟩
      rw [hne] at g1
      rw [hba] at g2
      refine ⟨by rw [g1, g2], ?_⟩
      intro s1 s2 hs1 _
      rw [g1] at hs1
      exact absurd hs1 (by simp)
    · have hne2 : dayObs other c B ++ dayObs other c A ≠ [] := by
        intro he
        apply hne
        simp only [List.append_eq_nil] at he ⊢
        exact ⟨he.2, he.1⟩
      obtain ⟨t1, ht1⟩ := foldl_stepStat_none _ hne
      obtain ⟨t2, ht2⟩ := foldl_stepStat_none _ hne2
      have hsum1 := sum_totalFrom none _ t1 ht1
      have hsum2 := sum_totalFrom none _ t2 ht2
      rw [ht1] at g1
      rw [ht2] at g2
      refine ⟨by rw [g1, g2]; simp, ?_⟩
      intro s1 s2 hs1 hs2
      rw [g1, Option.some.injEq] at hs1
      rw [g2, Option.some.injEq] at hs2
      subst hs1 hs2
      refine ⟨hsum1, hsum2, ?_⟩
      intro hnn
      have hhead1 : ∃ q, (dayObs other c A ++ dayObs other c B).head? = some q ∧
          q.2.isNaN = false := by
        cases hl : dayObs other c A ++ dayObs other c B with
        | nil => exact absurd hl hne
        | cons q _ => exact ⟨q, rfl, hnn q (by rw [hl]; exact List.mem_cons_self _ _)⟩
      have hhead2 : ∃ q, (dayObs other c B ++ dayObs other c A).head? = some q ∧
          q.2.isNaN = false := by
        cases hl : dayObs other c B ++ dayObs other c A with
        | nil => exact absurd hl hne2
        | cons q _ =>
          refine ⟨q, rfl, hnn q ?_⟩
          have hq : q ∈ dayObs other c B ++ dayObs other c A := by
            rw [hl]; exact List.mem_cons_self _ _
          rcases List.mem_append.1 hq with hq | hq
          · exact List.mem_append.2 (Or.inr hq)
          · exact List.mem_append.2 (Or.inl hq)
      obtain ⟨u1, hu1, sm1⟩ := summarises_of_observations _ hhead1
      obtain ⟨u2, hu2, sm2⟩ := summarises_of_observations _ hhead2
      rw [ht1, Option.some.injEq] at hu1
      rw [ht2, Option.some.injEq] at hu2
      subst hu1 hu2
      obtain ⟨smin, smax, dmin, dmax⟩ := summarises_comm A.Date B.Date hA hB sm1 sm2
      refine ⟨smin, smax, ?_, ?_⟩
      · intro hc
        apply dmin
        rcases hc with hc | hc | hc | ⟨st0, hst0, _⟩
        · exact Or.inl hc
        · exact Or.inr (Or.inl hc)
        · exact Or.inr (Or.inr hc)
        · exact absurd hst0 (by simp)
      · intro hc
        apply dmax
        rcases hc with hc | hc | hc | ⟨st0, hst0, _⟩
        · exact Or.inl hc
        · exact Or.inr (Or.inl hc)
        · exact Or.inr (Or.inr hc)
        · exact absurd hst0 (by simp)

theorem fold_order_independent_values_witness :
    (setCurrencyDalyData noOther dayOne []).bind (setCurrencyDalyData noOther dayTwo) =
      some [("USD", twoDayStat)] ∧
    (∀ q ∈ dayObs noOther "USD" dayTwo, F64.eq q.2 twoDayStat.Min = false) ∧
    ∃ m2, (setCurrencyDalyData noOther dayTwo []).bind (setCurrencyDalyData noOther dayOne) =
      some m2 ∧ (Store.get [("USD", twoDayStat)] "USD" = none ↔ m2.get "USD" = none) :=
  ⟨day_one_then_two noOther, by decide!,
    (fold_order_independent_values noOther [] dayOne dayTwo _ (day_one_then_two noOther)).imp
      (fun _ hm2 => ⟨hm2.1, (hm2.2 "USD").1⟩)⟩

/-! ## Rounding -/

/-- The rounded quotient is within one half of the quotient. -/
theorem roundHalfEven_spec (a b : Nat) (hb : 0 < b) :
    2 * (roundHalfEven a b * b) ≤ 2 * a + b ∧ 2 * a ≤ 2 * (roundHalfEven a b * b) + b ∧
    a / b ≤ roundHalfEven a b ∧ roundHalfEven a b ≤ a / b + 1 := by
  have hdm : b * (a / b) + a % b = a := Nat.div_add_mod a b
  have hr : a % b < b := Nat.mod_lt a hb
  have hmul : (a / b + 1) * b = a / b * b + b := by ring
  have hcomm : a / b * b = b * (a / b) := Nat.mul_comm _ _
  unfold roundHalfEven
  simp only
  by_cases h1 : 2 * (a % b) < b
  · rw [if_pos h1]
    refine ⟨?_, ?_, le_refl _, Nat.le_succ _⟩ <;> omega
  · rw [if_neg h1]
    by_cases h2 : b < 2 * (a % b)
    · rw [if_pos h2]
      refine ⟨?_, ?_, Nat.le_succ _, le_refl _⟩ <;> rw [hmul] <;> omega
    · rw [if_neg h2]
      by_cases h3 : a / b % 2 = 0
      · rw [if_pos h3]
        refine ⟨?_, ?_, le_refl _, Nat.le_succ _⟩ <;> omega
      · rw [if_neg h3]
        refine ⟨?_, ?_, Nat.le_succ _, le_refl _⟩ <;> rw [hmul] <;> omega

theorem spacingSearch_spec (q : Nat) :
    ∀ (j s : Nat), (s = 0 ∨ 2 ^ (52 + s) ≤ q) → q < 2 ^ (52 + s + 2 ^ j) →
      (spacingSearch j s q = 0 ∨ 2 ^ (52 + spacingSearch j s q) ≤ q) ∧
      q < 2 ^ (53 + spacingSearch j s q) := by
  intro j
  induction j with
  | zero =>
    intro s hlo hhi
    refine ⟨hlo, ?_⟩
    have : 52 + s + 2 ^ 0 = 53 + s := by omega
    rw [this] at hhi
    exact hhi
  | succ j ih =>
    intro s hlo hhi
    have hpow : 2 ^ (j + 1) = 2 ^ j + 2 ^ j := by rw [pow_succ]; omega
    rw [spacingSearch]
    by_cases hstep : 2 ^ (52 + s + 2 ^ j) ≤ q
    · rw [if_pos hstep]
      apply ih (s + 2 ^ j)
      · right
        have : 52 + (s + 2 ^ j) = 52 + s + 2 ^ j := by omega
        rw [this]
        exact hstep
      · have : 52 + (s + 2 ^ j) + 2 ^ j = 52 + s + 2 ^ (j + 1) := by omega
        rw [this]
        exact hhi
    · rw [if_neg hstep]
      exact ih s hlo (Nat.lt_of_not_le hstep)

/-- Below `2^2097` units the spacing exponent is at most 2044 and the quotient by the spacing
is below `2^53`. -/
theorem spacingExp_spec (q : Nat) (hq : q < 2 ^ 2097) :
    spacingExp q ≤ 2044 ∧ q < 2 ^ (53 + spacingExp q) := by
  have hhi : q < 2 ^ (52 + 0 + 2 ^ 12) :=
    Nat.lt_of_lt_of_le hq (pow_le_pow_right₀ (by decide) (by decide))
  obtain ⟨hlo, hup⟩ := spacingSearch_spec q 12 0 (Or.inl rfl) hhi
  refine ⟨?_, hup⟩
  rcases hlo with h0 | hle
  · show spacingSearch 12 0 q ≤ 2044
    rw [h0]
    exact Nat.zero_le _
  · have hlt : 2 ^ (52 + spacingSearch 12 0 q) < 2 ^ 2097 := lt_of_le_of_lt hle hq
    have h2 := (Nat.pow_lt_pow_iff_right (by decide : 1 < 2)).1 hlt
    show spacingSearch 12 0 q ≤ 2044
    clear hlt hle hq hhi hup
    omega

/-- A quotient below `2^2097` units rounds to a finite value, within half the spacing. -/
theorem F64.round_of_lt (neg : Bool) (a b : Nat) (hb : 0 < b) (hq : a / b < 2 ^ 2097) :
    F64.round neg a b =
      F64.fin neg (roundHalfEven a (b * 2 ^ spacingExp (a / b)) * 2 ^ spacingExp (a / b)) := by
  obtain ⟨hr, hup⟩ := spacingExp_spec (a / b) hq
  have hpos : 0 < b * 2 ^ spacingExp (a / b) := Nat.mul_pos hb (Nat.two_pow_pos _)
  obtain ⟨_, _, _, hm⟩ := roundHalfEven_spec a (b * 2 ^ spacingExp (a / b)) hpos
  have hdiv : a / (b * 2 ^ spacingExp (a / b)) = a / b / 2 ^ spacingExp (a / b) :=
    (Nat.div_div_eq_div_mul a b _).symm
  have hlt53 : a / b / 2 ^ spacingExp (a / b) < 2 ^ 53 := by
    apply Nat.div_lt_of_lt_mul
    rw [← pow_add, Nat.add_comm]
    exact hup
  have hm53 : roundHalfEven a (b * 2 ^ spacingExp (a / b)) ≤ 2 ^ 53 := by
    rw [hdiv] at hm
    omega
  have hprod : roundHalfEven a (b * 2 ^ spacingExp (a / b)) * 2 ^ spacingExp (a / b) ≤
      2 ^ 53 * 2 ^ 2044 :=
    Nat.mul_le_mul hm53 (pow_le_pow_right₀ (by decide) hr)
  have hbig : 2 ^ 53 * 2 ^ 2044 < 2 ^ 2098 := by
    rw [← pow_add]
    exact pow_lt_pow_right₀ (by decide) (by decide)
  unfold F64.round
  simp only
  rw [if_neg (Nat.not_le.2 (Nat.lt_of_le_of_lt hprod hbig))]

/-! ## Reading a number -/

theorem replaceFirst_of_not_mem (old new : Char) :
    ∀ s : List Char, old ∉ s → replaceFirst old new s = s := by
  intro s
  induction s with
  | nil => intro _; rfl
  | cons c cs ih =>
    intro h
    simp only [List.mem_cons, not_or] at h
    simp only [replaceFirst, if_neg (Ne.symm h.1), ih h.2]

theorem replaceFirst_append (old new : Char) :
    ∀ a b : List Char, old ∉ a → replaceFirst old new (a ++ old :: b) = a ++ new :: b := by
  intro a
  induction a with
  | nil => intro b _; simp [replaceFirst]
  | cons c cs ih =>
    intro b h
    simp only [List.mem_cons, not_or] at h
    show replaceFirst old new (c :: (cs ++ old :: b)) = c :: (cs ++ new :: b)
    rw [replaceFirst, if_neg (Ne.symm h.1), ih b h.2]

theorem not_mem_of_digits (x : Char) (hx : x.isDigit = false) (a : List Char)
    (ha : ∀ c ∈ a, c.isDigit = true) : x ∉ a := by
  intro hmem
  have := ha x hmem
  rw [hx] at this
  exact absurd this (by simp)

theorem digitsValue_cons (acc : Nat) (c : Char) (cs : List Char) :
    digitsValue acc (c :: cs) = digitsValue (10 * acc + (c.toNat - 48)) cs := rfl

theorem digitsValue_append (a b : List Char) :
    ∀ acc : Nat, digitsValue acc (a ++ b) = digitsValue (digitsValue acc a) b := by
  induction a with
  | nil => intro acc; rfl
  | cons c cs ih =>
    intro acc
    rw [List.cons_append, digitsValue_cons, digitsValue_cons, ih]

theorem digitsValue_acc (b : List Char) :
    ∀ acc : Nat, digitsValue acc b = acc * 10 ^ b.length + digitsValue 0 b := by
  induction b with
  | nil =>
    intro acc
    show acc = acc * 10 ^ 0 + 0
    omega
  | cons c cs ih =>
    intro acc
    rw [digitsValue_cons, digitsValue_cons, List.length_cons,
      ih (10 * acc + (c.toNat - 48)), ih (10 * 0 + (c.toNat - 48))]
    ring

theorem digit_le_nine (c : Char) (h : c.isDigit = true) : c.toNat - 48 ≤ 9 := by
  simp only [Char.isDigit, Bool.and_eq_true, decide_eq_true_eq] at h
  have h2 : c.val.toNat ≤ 57 := h.2
  show c.val.toNat - 48 ≤ 9
  omega

/-- A string of `n` digits writes a number below `10^n`. -/
theorem digitsValue_lt (l : List Char) (hl : ∀ c ∈ l, c.isDigit = true) :
    digitsValue 0 l < 10 ^ l.length := by
  induction l using List.reverseRecOn with
  | nil => show 0 < 1; decide
  | append_singleton l c ih =>
    have hc := digit_le_nine c (hl c (by simp))
    have hl' := ih (fun d hd => hl d (by simp [hd]))
    rw [digitsValue_append, digitsValue_cons]
    show 10 * digitsValue 0 l + (c.toNat - 48) < 10 ^ (l ++ [c]).length
    rw [List.length_append, List.length_singleton, pow_succ]
    omega

/-- The number written by a string of digits is the one with these decimal digits. -/
theorem digitsValue_eq_ofDigits (l : List Char) :
    digitsValue 0 l = Nat.ofDigits 10 (l.reverse.map (fun c => c.toNat - 48)) := by
  induction l using List.reverseRecOn with
  | nil => rfl
  | append_singleton l c ih =>
    rw [digitsValue_append, digitsValue_cons, List.reverse_append, List.reverse_singleton,
      List.singleton_append, List.map_cons, Nat.ofDigits_cons, ← ih]
    show 10 * digitsValue 0 l + (c.toNat - 48) = _
    ring

theorem parseDecimal_digits (a b : List Char) (ha : ∀ c ∈ a, c.isDigit = true)
    (hb : ∀ c ∈ b, c.isDigit = true) (hne : a ++ b ≠ []) :
    parseDecimal (a ++ '.' :: b) = some (digitsValue 0 (a ++ b), b.length) := by
  have hdot : ∀ c ∈ a, (c != '.') = true := by
    intro c hc
    have hne : c ≠ '.' := by
      rintro rfl
      exact not_mem_of_digits '.' (by decide) a ha hc
    simpa using hne
  have htake : (a ++ '.' :: b).takeWhile (fun c => c != '.') = a := by
    rw [List.takeWhile_append_of_pos hdot]
    simp [List.takeWhile_cons]
  have hdrop : (a ++ '.' :: b).dropWhile (fun c => c != '.') = '.' :: b := by
    rw [List.dropWhile_append_of_pos hdot]
    simp [List.dropWhile_cons]
  have hall : (a ++ b).all Char.isDigit = true := by
    rw [List.all_eq_true]
    intro c hc
    rcases List.mem_append.1 hc with h | h
    · exact ha c h
    · exact hb c h
  have hemp : (a ++ b).isEmpty = false := by
    cases hab : a ++ b with
    | nil => exact absurd hab hne
    | cons _ _ => rfl
  simp only [parseDecimal, htake, hdrop, List.drop_succ_cons, List.drop_zero, hall, hemp,
    Bool.not_false, Bool.and_self, if_true]

theorem parseDecimal_no_period (a : List Char) (ha : ∀ c ∈ a, c.isDigit = true) (hne : a ≠ []) :
    parseDecimal a = some (digitsValue 0 a, 0) := by
  have hdot : ∀ c ∈ a, (c != '.') = true := by
    intro c hc
    have hne : c ≠ '.' := by
      rintro rfl
      exact not_mem_of_digits '.' (by decide) a ha hc
    simpa using hne
  have htake : a.takeWhile (fun c => c != '.') = a := List.takeWhile_eq_self_iff.2 hdot
  have hdrop : a.dropWhile (fun c => c != '.') = [] := List.dropWhile_eq_nil_iff.2 hdot
  have hall : a.all Char.isDigit = true := by
    rw [List.all_eq_true]
    exact ha
  have hemp : a.isEmpty = false := by
    cases a with
    | nil => exact absurd rfl hne
    | cons _ _ => rfl
  simp only [parseDecimal, htake, hdrop, List.drop_nil, List.append_nil, hall, hemp,
    Bool.not_false, Bool.and_self, if_true, List.length_nil]

/-- A text that is a plain decimal numeral after the replacement is read without `other`. -/
theorem stringToFloat64_of_parseDecimal (other : List Char → Option F64) (v : String)
    (n k : Nat) (h : parseDecimal (replaceFirst ',' '.' v.data) = some (n, k)) :
    stringToFloat64 other v = rangeChecked (F64.ofFrac n (10 ^ k)) := by
  simp only [stringToFloat64, ParseFloat, h]

/-- C7, refuted as stated. The text of four hundred nines, a comma and a zero is made of digits,
a comma and digits, but the number it writes is beyond the `float64` range: `ParseFloat`
reports a range error and `stringToFloat64` panics. And the text 12,3456 gives the `float64`
nearest to 12.3456, which is not the number 12.3456 itself. -/
theorem long_number_panics :
    ninesText.data = List.replicate 400 '9' ++ ',' :: ['0'] ∧
    (∀ c ∈ List.replicate 400 '9', c.isDigit = true) ∧
    (∀ other, stringToFloat64 other ninesText = none) ∧
    (∀ other, stringToFloat64 other "12,3456" = some (F64.ofFrac 123456 10000)) ∧
    (F64.ofFrac 123456 10000).signed * 10000 ≠ 123456 * 2 ^ 1074 := by
  refine ⟨rfl, ?_, ?_, ?_, by decide!⟩
  · intro c hc
    rw [List.eq_of_mem_replicate hc]
    decide
  · intro other
    rw [stringToFloat64_of_parseDecimal other ninesText (digitsValue 0
      (List.replicate 400 '9' ++ ['0'])) 1 (by decide!)]
    decide!
  · intro other
    rw [stringToFloat64_of_parseDecimal other "12,3456" 123456 4 (by decide!)]
    decide!

/-- C7, amended. On a text made of digits, a comma and digits, `stringToFloat64` replaces the
comma by a period, and the result is the `float64` nearest to the decimal number so written,
or a panic when that number is beyond the `float64` range. There is no panic when the integer
part has at most 307 digits: the result is then a finite `float64`, a whole number `m` of
steps of the spacing `2^e` at its size, that differs from the number written by at most half
a step. The text 12,3456 gives the `float64` nearest to 12.3456. A text of digits without
comma is parsed as it is, and 100 gives 100. -/
theorem stringToFloat64_comma (other : List Char → Option F64) (a b : List Char)
    (ha : ∀ c ∈ a, c.isDigit = true) (hb : ∀ c ∈ b, c.isDigit = true) (hane : a ≠ []) :
    replaceFirst ',' '.' (a ++ ',' :: b) = a ++ '.' :: b ∧
    stringToFloat64 other (String.mk (a ++ ',' :: b)) =
      rangeChecked (F64.ofFrac (digitsValue 0 (a ++ b)) (10 ^ b.length)) ∧
    digitsValue 0 (a ++ b) = Nat.ofDigits 10 ((a ++ b).reverse.map (fun c => c.toNat - 48)) ∧
    (a.length ≤ 307 →
      ∃ m e : Nat, e = spacingExp (digitsValue 0 (a ++ b) * 2 ^ 1074 / 10 ^ b.length) ∧
        stringToFloat64 other (String.mk (a ++ ',' :: b)) = some (F64.fin false (m * 2 ^ e)) ∧
        2 * (m * (10 ^ b.length * 2 ^ e)) ≤
          2 * (digitsValue 0 (a ++ b) * 2 ^ 1074) + 10 ^ b.length * 2 ^ e ∧
        2 * (digitsValue 0 (a ++ b) * 2 ^ 1074) ≤
          2 * (m * (10 ^ b.length * 2 ^ e)) + 10 ^ b.length * 2 ^ e) ∧
    stringToFloat64 other "12,3456" = some (F64.ofFrac 123456 10000) ∧
    replaceFirst ',' '.' a = a ∧
    stringToFloat64 other (String.mk a) = rangeChecked (F64.ofFrac (digitsValue 0 a) 1) ∧
    stringToFloat64 other "100" = some (F64.ofNat 100) := by
  have hca : ',' ∉ a := not_mem_of_digits ',' (by decide) a ha
  have hrep := replaceFirst_append ',' '.' a b hca
  have hrep0 := replaceFirst_of_not_mem ',' '.' a hca
  have hp := parseDecimal_digits a b ha hb (by simp [hane])
  have hstf := stringToFloat64_of_parseDecimal other (String.mk (a ++ ',' :: b)) _ _
    (by rw [hrep]; exact hp)
  refine ⟨hrep, hstf, digitsValue_eq_ofDigits _, ?_, ?_, hrep0, ?_, ?_⟩
  · intro hlen
    have hpos : 0 < 10 ^ b.length := pow_pos (by decide) _
    have hN : digitsValue 0 (a ++ b) < 10 ^ a.length * 10 ^ b.length := by
      have := digitsValue_lt (a ++ b) (by
        intro c hc
        rcases List.mem_append.1 hc with h | h
        · exact ha c h
        · exact hb c h)
      rw [List.length_append, pow_add] at this
      exact this
    have h307 : 10 ^ a.length ≤ 2 ^ 1023 :=
      Nat.le_trans (Nat.pow_le_pow_right (by decide) hlen) (by decide!)
    have hq : digitsValue 0 (a ++ b) * 2 ^ 1074 / 10 ^ b.length < 2 ^ 2097 := by
      apply Nat.div_lt_of_lt_mul
      have h1 : digitsValue 0 (a ++ b) < 2 ^ 1023 * 10 ^ b.length :=
        Nat.lt_of_lt_of_le hN (Nat.mul_le_mul_right _ h307)
      have h2 : digitsValue 0 (a ++ b) * 2 ^ 1074 < 2 ^ 1023 * 10 ^ b.length * 2 ^ 1074 :=
        Nat.mul_lt_mul_of_pos_right h1 (by positivity)
      have h3 : 2 ^ 1023 * 10 ^ b.length * 2 ^ 1074 = 10 ^ b.length * 2 ^ 2097 := by
        have : (2 : Nat) ^ 2097 = 2 ^ 1023 * 2 ^ 1074 := by rw [← pow_add]
        rw [this]
        ring
      rw [h3] at h2
      exact h2
    have hround := F64.round_of_lt false (digitsValue 0 (a ++ b) * 2 ^ 1074) (10 ^ b.length)
      hpos hq
    have hspec := roundHalfEven_spec (digitsValue 0 (a ++ b) * 2 ^ 1074)
      (10 ^ b.length * 2 ^ spacingExp (digitsValue 0 (a ++ b) * 2 ^ 1074 / 10 ^ b.length))
      (Nat.mul_pos hpos (Nat.two_pow_pos _))
    refine ⟨_, _, rfl, ?_, hspec.1, hspec.2.1⟩
    rw [hstf, F64.ofFrac, hround]
    rfl
  · rw [stringToFloat64_of_parseDecimal other "12,3456" 123456 4 (by decide!)]
    decide!
  · exact stringToFloat64_of_parseDecimal other (String.mk a) _ 0
      (by rw [hrep0]; exact parseDecimal_no_period a ha hane)
  · rw [stringToFloat64_of_parseDecimal other "100" 100 0 (by decide!)]
    decide!

theorem stringToFloat64_comma_witness :
    stringToFloat64 noOther (String.mk (['9', '1'] ++ ',' :: ['5'])) =
      rangeChecked (F64.ofFrac (digitsValue 0 (['9', '1'] ++ ['5'])) (10 ^ ['5'].length)) ∧
    stringToFloat64 noOther (String.mk (['9', '1'] ++ ',' :: ['5'])) = some (F64.ofFrac 183 2) :=
  ⟨(stringToFloat64_comma noOther ['9', '1'] ['5'] (by decide) (by decide) (by decide)).2.1,
    by decide!⟩

end CbrRates
